import Mathlib

/-!
# Text-structurer verification for fastapi-streamlit-resume

Shallow embedding of the pure text-to-structure layer of the repository:
`parse_csv_or_lines`, `normalize_language_level`, `parse_sections_text`,
`parse_projects_blocks` (api/main.py) and `extract_social_handle` together
with its URL helpers (api/pdf_utils.py).  Strings are modelled as Lean
`String`s, manipulated through their underlying `List Char`.  Python string
primitives (`str.strip`, `str.splitlines`, `str.replace`, `str.split`,
`"\n".join`, substring tests, `re.search` for the one fixed pattern used)
are modelled explicitly below.  Character classes are the ASCII-faithful
cores of Python's Unicode classes (plus the non-ASCII members that the
code's data actually exercises); every concrete input used in a theorem
below is ASCII, where the modelling is exact.
-/

/-- Python `str.isspace` characters as used by `str.strip()` (ASCII core
plus NEL, NBSP and the two Unicode line/paragraph separators). -/
def pyWs (c : Char) : Bool :=
  c = ' ' || c = '\t' || c = '\n' || c = '\r' || c = '\x0b' || c = '\x0c' ||
  c = '\x1c' || c = '\x1d' || c = '\x1e' || c = '\x1f' ||
  c = '\x85' || c = '\xa0' || c = '\u2028' || c = '\u2029'

/-- Line boundaries recognized by Python `str.splitlines`
(`\r\n` is additionally treated as a single boundary). -/
def isLineBoundary (c : Char) : Bool :=
  c = '\n' || c = '\r' || c = '\x0b' || c = '\x0c' ||
  c = '\x1c' || c = '\x1d' || c = '\x1e' ||
  c = '\x85' || c = '\u2028' || c = '\u2029'

/-- `str.strip()` on a character list. -/
def stripL (l : List Char) : List Char :=
  ((l.dropWhile pyWs).reverse.dropWhile pyWs).reverse

/-- `str.strip()`. -/
def pyStrip (s : String) : String := String.mk (stripL s.data)

/-- `str.splitlines()` on a character list (`\r\n` counts as one boundary). -/
def splitlinesL : List Char → List (List Char)
  | [] => []
  | c :: rest =>
    if c = '\r' then
      match rest with
      | '\n' :: r2 => [] :: splitlinesL r2
      | r => [] :: splitlinesL r
    else if isLineBoundary c then [] :: splitlinesL rest
    else
      match splitlinesL rest with
      | [] => [[c]]
      | l :: ls => (c :: l) :: ls

/-- `str.splitlines()`. -/
def pySplitlines (s : String) : List String := (splitlinesL s.data).map String.mk

/-- `"\n".join` on character lists. -/
def joinNL : List (List Char) → List Char
  | [] => []
  | [x] => x
  | x :: y :: r => x ++ '\n' :: joinNL (y :: r)

/-- `"\n".join` on strings. -/
def strJoinNL (l : List String) : String := String.mk (joinNL (l.map String.data))

/-- `",".join` on character lists (used only to state properties about
comma-separated inputs). -/
def joinComma : List (List Char) → List Char
  | [] => []
  | [x] => x
  | x :: y :: r => x ++ ',' :: joinComma (y :: r)

/-- `",".join` on strings. -/
def strJoinComma (l : List String) : String := String.mk (joinComma (l.map String.data))

/-- List-of-characters starts-with test (`str.startswith`). -/
def listPre : List Char → List Char → Bool
  | [], _ => true
  | _ :: _, [] => false
  | p :: ps, q :: qs => p = q && listPre ps qs

/-- Python substring test `pat in hay`. -/
def hasSubstr (hay pat : List Char) : Bool :=
  match hay with
  | [] => pat.isEmpty
  | _ :: t => listPre pat hay || hasSubstr t pat

/-- ASCII lower-casing (`str.lower` restricted to ASCII letters). -/
def pyLower (c : Char) : Char :=
  if 'A' ≤ c && c ≤ 'Z' then Char.ofNat (c.toNat + 32) else c

/-- `str.lower()`. -/
def strLower (s : String) : String := String.mk (s.data.map pyLower)

/-! ## api/main.py: `parse_csv_or_lines` -/

/-- `txt.replace(",", "\n")` (single-character pattern, hence a plain map). -/
def pyReplaceCommaNL (s : String) : String :=
  String.mk (s.data.map (fun c => if c = ',' then '\n' else c))

/-- Embedding of `parse_csv_or_lines` (api/main.py, lines 178-186):
commas are normalized to newlines, the text is split into lines, each line
is stripped, and empty results are dropped. -/
def parse_csv_or_lines (txt : String) : List String :=
  if txt = "" then []
  else ((pySplitlines (pyReplaceCommaNL txt)).map pyStrip).filter
        (fun s => decide (s ≠ ""))

/-! ## api/main.py: `normalize_language_level`

The source matches `re.search(r"(?i)^(.+?)\s*[-–:]\s*([abc][12])\b", s)`.
Since the pattern is anchored at the start, the search is a scan over the
lazy group-1 length: the shortest non-empty newline-free prefix after which
`\s*[-–:]\s*([abc][12])\b` matches wins.  The tail match is deterministic:
a greedy whitespace run can only end right before the (non-whitespace)
separator, and likewise before the (non-whitespace) level code. -/

/-- The separator class `[-–:]`. -/
def sepCharB (c : Char) : Bool := c = '-' || c = '–' || c = ':'

/-- The class `[abc]` under `(?i)`. -/
def cefrAlphaB (c : Char) : Bool :=
  c = 'a' || c = 'b' || c = 'c' || c = 'A' || c = 'B' || c = 'C'

/-- The class `[12]`. -/
def digit12B (c : Char) : Bool := c = '1' || c = '2'

/-- Python `\w` (ASCII core), used for the `\b` boundary after the code. -/
def isWordCharB (c : Char) : Bool := c.isAlphanum || c = '_'

/-- Match `\s*[-–:]\s*([abc][12])\b` at the head of `cs`; returns the two
characters of group 2. -/
def matchRest (cs : List Char) : Option (Char × Char) :=
  match cs.dropWhile pyWs with
  | c :: rest =>
    if sepCharB c then
      match rest.dropWhile pyWs with
      | a :: b :: rest2 =>
        if cefrAlphaB a && digit12B b &&
            (match rest2 with | [] => true | d :: _ => !isWordCharB d) then
          some (a, b)
        else none
      | _ => none
    else none
  | [] => none

/-- Scan for the shortest non-empty `.+?` prefix (no newline allowed inside)
after which `matchRest` succeeds; `pre` accumulates the prefix read so far. -/
def scanFrom (pre : List Char) : List Char → Option (List Char × Char × Char)
  | [] => none
  | c :: rest =>
    if c = '\n' then none
    else
      match matchRest rest with
      | some (a, b) => some (pre ++ [c], a, b)
      | none => scanFrom (pre ++ [c]) rest

/-- The fixed 6-entry CEFR table (`mapping` in the source); `none` models a
missed dictionary lookup. -/
def cefrMap (s : String) : Option String :=
  if s = "a1" || s = "a2" then some "Grundkenntnisse"
  else if s = "b1" || s = "b2" then some "Gute Kenntnisse"
  else if s = "c1" then some "Sehr gute Kenntnisse"
  else if s = "c2" then some "Verhandlungssicher"
  else none

/-- Embedding of `normalize_language_level` (api/main.py, lines 29-46). -/
def normalize_language_level (label : String) : String :=
  let s := pyStrip label
  match scanFrom [] s.data with
  | some (pre, a, b) =>
      let lang := pyStrip (String.mk pre)
      let lvl := String.mk [pyLower a, pyLower b]
      lang ++ " – " ++ ((cefrMap lvl).getD (String.mk [a, b]))
  | none => s

/-! ## api/main.py: `parse_sections_text` -/

/-- A parsed section (`{"title": ..., "lines": [...]}` in the source). -/
structure Sec where
  title : String
  lines : List String
deriving DecidableEq

/-- Parser state of `parse_sections_text`: current title (`""` models
Python's `None`, which the source only ever tests for truthiness), current
line items, and flushed sections. -/
structure SecState where
  title : String
  lines : List String
  secs : List Sec
deriving DecidableEq

/-- The local `flush()`: emit the current section only when both title and
lines are truthy, then reset. -/
def secFlush (st : SecState) : SecState :=
  if st.title ≠ "" ∧ st.lines ≠ [] then ⟨"", [], st.secs ++ [⟨st.title, st.lines⟩]⟩
  else ⟨"", [], st.secs⟩

/-- `s[:1] in "-•–"` (bullet test; on a non-empty `s` this is a membership
test of the first character). -/
def bulletHead (l : List Char) : Bool := hasSubstr ['-', '•', '–'] (l.take 1)

/-- One loop iteration of `parse_sections_text` on a raw line. -/
def secStep (st : SecState) (raw : String) : SecState :=
  let s := stripL raw.data
  if s = [] then secFlush st
  else if listPre ['['] s && listPre [']'] s.reverse then
    { secFlush st with title := String.mk (stripL ((s.drop 1).dropLast)) }
  else if bulletHead s then
    { st with lines := st.lines ++ [String.mk (stripL (s.drop 1))] }
  else if st.lines ≠ [] then
    { st with lines := st.lines.dropLast ++ [st.lines.getLastD "" ++ " " ++ String.mk s] }
  else
    { st with title := if st.title ≠ "" then st.title else String.mk s }

/-- Embedding of `parse_sections_text` (api/main.py, lines 119-145). -/
def parse_sections_text (txt : String) : List Sec :=
  (secFlush ((pySplitlines txt).foldl secStep ⟨"", [], []⟩)).secs

/-! ## api/main.py: `parse_projects_blocks` -/

/-- Parser state of `parse_projects_blocks` (`cur_title`, `cur_desc`,
`cur_link` and the accumulated blocks). -/
structure ProjState where
  title : String
  desc : List String
  link : Option String
  blocks : List (String × String × Option String)
deriving DecidableEq

/-- `line.startswith("http://") or line.startswith("https://")`. -/
def isHttpB (l : String) : Bool :=
  listPre "http://".data l.data || listPre "https://".data l.data

/-- Truthiness of `cur_link` (an `Option String` whose `some ""` would be
falsy in Python, although link lines are never empty). -/
def linkTruthy : Option String → Bool
  | none => false
  | some s => decide (s ≠ "")

/-- The local `flush()` of `parse_projects_blocks`: emit
`(cur_title.strip(), "\n".join(cur_desc).strip(), cur_link)` when any of the
three is truthy, then reset. -/
def projFlush (st : ProjState) : ProjState :=
  if decide (st.title ≠ "") || !st.desc.isEmpty || linkTruthy st.link then
    ⟨"", [], none, st.blocks ++ [(pyStrip st.title, pyStrip (strJoinNL st.desc), st.link)]⟩
  else ⟨"", [], none, st.blocks⟩

/-- One loop iteration of `parse_projects_blocks` on a raw line. -/
def projStep (st : ProjState) (raw : String) : ProjState :=
  let line := pyStrip raw
  if line = "" then projFlush st
  else if st.title = "" then { st with title := line }
  else if isHttpB line then { st with link := some line }
  else { st with desc := st.desc ++ [line] }

/-- Embedding of `parse_projects_blocks` (api/main.py, lines 92-117). -/
def parse_projects_blocks (txt : String) : List (String × String × Option String) :=
  (projFlush ((pySplitlines txt).foldl projStep ⟨"", [], none, []⟩)).blocks

/-! ## api/pdf_utils.py: `extract_social_handle` and URL helpers -/

/-- Module-level flag of pdf_utils.py (line 129). -/
def USE_LINKEDIN_REDIRECT : Bool := false

/-- Module-level flag of pdf_utils.py (line 130). -/
def USE_MOBILE_LINKEDIN : Bool := false

/-- Module-level constant of pdf_utils.py (line 128). -/
def LINKEDIN_REDIRECT_URL : String := "https://tamer.dev/in"

/-- Valid scheme characters of `urllib.parse` (letters, digits, `+-.`). -/
def schemeCharB (c : Char) : Bool :=
  c.isAlpha || c.isDigit || c = '+' || c = '-' || c = '.'

/-- Scheme removal of `urllib.parse.urlsplit`: if the text before the first
`:` is a non-empty valid scheme starting with a letter, drop it together
with the colon; otherwise leave the input untouched. -/
def splitScheme (cs : List Char) : List Char :=
  let pre := cs.takeWhile (fun c => c != ':')
  match cs.drop pre.length with
  | ':' :: r =>
      match pre with
      | [] => cs
      | c0 :: _ => if c0.isAlpha && pre.all schemeCharB then r else cs
  | _ => cs

/-- Characters ending the netloc in `urlsplit`. -/
def netlocStop (c : Char) : Bool := c = '/' || c = '?' || c = '#'

/-- The `(netloc, path)` view of `urllib.parse.urlparse` used by the source;
`none` models the `ValueError` raised on unbalanced IPv6 brackets in the
netloc (the callers wrap `urlparse` in `try/except`). -/
def urlNetlocPath (url : String) : Option (String × String) :=
  let rest := splitScheme url.data
  let np :=
    if listPre ['/', '/'] rest then
      let r := rest.drop 2
      let nl := r.takeWhile (fun c => !netlocStop c)
      (nl, r.drop nl.length)
    else ([], rest)
  if (np.1.contains '[' && !np.1.contains ']') ||
     (np.1.contains ']' && !np.1.contains '[') then none
  else
    some (String.mk np.1,
          String.mk ((np.2.takeWhile (fun c => c != '#')).takeWhile (fun c => c != '?')))

/-- `path.strip("/")`. -/
def stripSlashes (l : List Char) : List Char :=
  ((l.dropWhile (· == '/')).reverse.dropWhile (· == '/')).reverse

/-- `str.split("/")` on a character list (`"".split("/") == [""]`). -/
def splitSlash : List Char → List (List Char)
  | [] => [[]]
  | c :: rest =>
      if c = '/' then [] :: splitSlash rest
      else
        match splitSlash rest with
        | [] => [[c]]
        | l :: ls => (c :: l) :: ls

/-- `[seg for seg in path.strip("/").split("/") if seg]`. -/
def pathParts (path : String) : List String :=
  ((splitSlash (stripSlashes path.data)).map String.mk).filter
    (fun s => decide (s ≠ ""))

/-- Embedding of `_canonical_linkedin_url` (api/pdf_utils.py, lines 171-177). -/
def _canonical_linkedin_url (handle : String) : String :=
  if USE_LINKEDIN_REDIRECT then LINKEDIN_REDIRECT_URL
  else if USE_MOBILE_LINKEDIN then
    "https://m.linkedin.com/in/" ++ handle ++ "/?trk=public_profile"
  else
    "https://www.linkedin.com/in/" ++ handle ++ "/?trk=public_profile"

/-- Embedding of `_normalize_full_linkedin_url` (api/pdf_utils.py,
lines 179-196). -/
def _normalize_full_linkedin_url (raw : String) : Option (String × String) :=
  let url := if hasSubstr raw.data "://".data then raw else "https://" ++ raw
  match urlNetlocPath url with
  | none => none
  | some (netloc, path) =>
      let host := strLower netloc
      if !hasSubstr host.data "linkedin.com".data then none
      else
        match pathParts path with
        | p0 :: p1 :: _ =>
            if strLower p0 = "in" then some (p1, _canonical_linkedin_url p1) else none
        | _ => none

/-- Embedding of `extract_social_handle` (api/pdf_utils.py, lines 200-231). -/
def extract_social_handle (key : String) (url_or_text : String) :
    Option (String × String) :=
  let raw := pyStrip url_or_text
  if raw = "" then none
  else if !raw.data.contains '/' && !raw.data.contains ' ' && !raw.data.contains ':' then
    if key = "GitHub" then some (raw, "https://github.com/" ++ raw)
    else if key = "LinkedIn" then some (raw, _canonical_linkedin_url raw)
    else none
  else if key = "GitHub" then
    (let url := if hasSubstr raw.data "://".data then raw else "https://" ++ raw
     match urlNetlocPath url with
     | none => none
     | some (netloc, path) =>
         let host := strLower netloc
         if hasSubstr host.data "github.com".data then
           match pathParts path with
           | p0 :: _ => some (p0, "https://github.com/" ++ p0)
           | [] => none
         else none)
  else if key = "LinkedIn" then _normalize_full_linkedin_url raw
  else none

/-! ## Basic lemmas about the string model -/

theorem strData_append (a b : String) : (a ++ b).data = a.data ++ b.data := rfl

theorem str_eq_of_data {a b : String} (h : a.data = b.data) : a = b := by
  cases a; cases b; cases h; rfl

theorem mk_data_eq {l : List Char} : (String.mk l).data = l := rfl

theorem dropWhile_head {p : Char → Bool} :
    ∀ (l : List Char), ∀ c ∈ (l.dropWhile p).head?, p c = false := by
  intro l
  induction l with
  | nil => simp
  | cons a t ih =>
      intro c hc
      by_cases hp : p a
      · rw [List.dropWhile_cons_of_pos hp] at hc
        exact ih c hc
      · rw [List.dropWhile_cons_of_neg hp] at hc
        simp only [List.head?_cons, Option.mem_def, Option.some.injEq] at hc
        subst hc
        exact Bool.eq_false_iff.mpr hp

theorem dropWhile_eq_self_of_head {p : Char → Bool} {l : List Char}
    (h : ∀ c ∈ l.head?, p c = false) : l.dropWhile p = l := by
  cases l with
  | nil => rfl
  | cons c t =>
      have hc : p c = false := h c (by simp)
      exact List.dropWhile_cons_of_neg (by simp [hc])

theorem dropWhile_eq_self_head {p : Char → Bool} {l : List Char}
    (h : l.dropWhile p = l) : ∀ c ∈ l.head?, p c = false := by
  cases l with
  | nil => simp
  | cons a t =>
      intro x hx
      simp only [List.head?_cons, Option.mem_def, Option.some.injEq] at hx
      subst hx
      cases hpa : p a with
      | false => rfl
      | true =>
          rw [List.dropWhile_cons_of_pos hpa] at h
          have hle := (List.dropWhile_sublist (l := t) p).length_le
          have hlen := congrArg List.length h
          simp only [List.length_cons] at hlen
          omega

/-- `stripL` is a sublist (needed for membership transfer). -/
theorem stripL_sublist (l : List Char) : (stripL l).Sublist l := by
  unfold stripL
  have h1 : (l.dropWhile pyWs).Sublist l := List.dropWhile_sublist pyWs
  have h2 : (((l.dropWhile pyWs).reverse.dropWhile pyWs)).Sublist (l.dropWhile pyWs).reverse :=
    List.dropWhile_sublist pyWs
  have h3 := h2.reverse
  rw [List.reverse_reverse] at h3
  exact h3.trans h1

theorem mem_stripL {c : Char} {l : List Char} (h : c ∈ stripL l) : c ∈ l :=
  (stripL_sublist l).subset h

theorem stripL_eq_self {l : List Char}
    (h1 : ∀ c ∈ l.head?, pyWs c = false) (h2 : ∀ c ∈ l.getLast?, pyWs c = false) :
    stripL l = l := by
  unfold stripL
  rw [dropWhile_eq_self_of_head h1]
  rw [dropWhile_eq_self_of_head (by simpa using h2)]
  exact List.reverse_reverse l

theorem stripL_dropWhile_eq_self {l : List Char} (h : stripL l = l) :
    l.dropWhile pyWs = l := by
  have hsub : (stripL l).Sublist (l.dropWhile pyWs) := by
    unfold stripL
    have h2 : (((l.dropWhile pyWs).reverse.dropWhile pyWs)).Sublist
        (l.dropWhile pyWs).reverse := List.dropWhile_sublist pyWs
    have h3 := h2.reverse
    rwa [List.reverse_reverse] at h3
  rw [h] at hsub
  have hlen : (l.dropWhile pyWs).length ≤ l.length :=
    (List.dropWhile_sublist pyWs).length_le
  have hlen2 : l.length ≤ (l.dropWhile pyWs).length := hsub.length_le
  exact (List.dropWhile_sublist pyWs).eq_of_length (by omega)

theorem stripL_eq_self_head {l : List Char} (h : stripL l = l) :
    ∀ c ∈ l.head?, pyWs c = false :=
  dropWhile_eq_self_head (stripL_dropWhile_eq_self h)

theorem stripL_eq_self_last {l : List Char} (h : stripL l = l) :
    ∀ c ∈ l.getLast?, pyWs c = false := by
  have hd := stripL_dropWhile_eq_self h
  have h2 : l.reverse.dropWhile pyWs = l.reverse := by
    have h3 : stripL l = (l.reverse.dropWhile pyWs).reverse := by
      unfold stripL; rw [hd]
    rw [h] at h3
    have h4 := congrArg List.reverse h3
    rw [List.reverse_reverse] at h4
    exact h4.symm
  intro c hc
  exact dropWhile_eq_self_head h2 c (by simpa using hc)

theorem stripL_head (l : List Char) : ∀ c ∈ (stripL l).head?, pyWs c = false := by
  intro c hc
  have hpre : (stripL l).IsPrefix (l.dropWhile pyWs) := by
    unfold stripL
    have hsfx : ((l.dropWhile pyWs).reverse.dropWhile pyWs).IsSuffix
        (l.dropWhile pyWs).reverse := List.dropWhile_suffix pyWs
    have h5 := hsfx.reverse
    rwa [List.reverse_reverse] at h5
  obtain ⟨t, ht⟩ := hpre
  cases hs : stripL l with
  | nil => rw [hs] at hc; simp at hc
  | cons x xs =>
      rw [hs] at ht hc
      simp only [List.head?_cons, Option.mem_def, Option.some.injEq] at hc
      subst hc
      have hhead : (l.dropWhile pyWs).head? = some x := by
        rw [← ht]; simp
      exact dropWhile_head l x (Option.mem_def.mpr hhead)

theorem stripL_last (l : List Char) : ∀ c ∈ (stripL l).getLast?, pyWs c = false := by
  intro c hc
  unfold stripL at hc
  rw [List.getLast?_reverse] at hc
  exact dropWhile_head _ c hc

theorem stripL_idem (l : List Char) : stripL (stripL l) = stripL l :=
  stripL_eq_self (stripL_head l) (stripL_last l)

theorem stripL_eq_nil_iff {l : List Char} :
    stripL l = [] ↔ ∀ c ∈ l, pyWs c = true := by
  constructor
  · intro h c hc
    unfold stripL at h
    have h1 : (l.dropWhile pyWs).reverse.dropWhile pyWs = [] := by
      have := congrArg List.reverse h
      simpa using this
    have h2 : ∀ x ∈ (l.dropWhile pyWs).reverse, pyWs x = true := by
      intro x hx
      exact List.dropWhile_eq_nil_iff.mp h1 x hx
    have h3 : ∀ x ∈ l.dropWhile pyWs, pyWs x = true := by
      intro x hx; exact h2 x (by simpa using hx)
    have hsplit := List.takeWhile_append_dropWhile pyWs (l := l)
    rw [← hsplit] at hc
    rcases List.mem_append.mp hc with hx | hx
    · exact List.mem_takeWhile_imp hx
    · exact h3 c hx
  · intro h
    unfold stripL
    have h1 : l.dropWhile pyWs = [] := List.dropWhile_eq_nil_iff.mpr h
    rw [h1]; rfl

/-- Non-empty strip-invariant lists start with a non-whitespace character. -/
theorem stripInv_head_cons {x : Char} {xs : List Char}
    (h : stripL (x :: xs) = x :: xs) : pyWs x = false :=
  stripL_eq_self_head h x (by simp)

/-! ## Lemmas about `splitlinesL` and `joinNL` -/

theorem splitlinesL_nil : splitlinesL [] = [] := rfl

theorem splitlinesL_crlf (rest : List Char) :
    splitlinesL ('\r' :: '\n' :: rest) = [] :: splitlinesL rest := by
  rw [splitlinesL.eq_2, if_pos rfl]

theorem splitlinesL_cr (r : List Char) (hne : ∀ r2, r ≠ '\n' :: r2) :
    splitlinesL ('\r' :: r) = [] :: splitlinesL r := by
  rw [splitlinesL.eq_3 _ _ (fun r2 h => hne r2 h), if_pos rfl]

theorem splitlinesL_cons_boundary {c : Char} (rest : List Char)
    (hr : c ≠ '\r') (hb : isLineBoundary c = true) :
    splitlinesL (c :: rest) = [] :: splitlinesL rest := by
  by_cases hn : ∃ r2, rest = '\n' :: r2
  · obtain ⟨r2, rfl⟩ := hn
    rw [splitlinesL.eq_2, if_neg hr, if_pos hb]
  · push_neg at hn
    rw [splitlinesL.eq_3 _ _ (fun r2 h => hn r2 h), if_neg hr, if_pos hb]

theorem splitlinesL_cons_plain {c : Char} (rest : List Char)
    (hb : isLineBoundary c = false) :
    splitlinesL (c :: rest) =
      match splitlinesL rest with
      | [] => [[c]]
      | l :: ls => (c :: l) :: ls := by
  have hr : c ≠ '\r' := by
    intro h; subst h; exact absurd hb (by decide)
  by_cases hn : ∃ r2, rest = '\n' :: r2
  · obtain ⟨r2, rfl⟩ := hn
    rw [splitlinesL.eq_2, if_neg hr, if_neg (by simp [hb])]
  · push_neg at hn
    rw [splitlinesL.eq_3 _ _ (fun r2 h => hn r2 h), if_neg hr, if_neg (by simp [hb])]

/-- A non-empty boundary-free character list is a single line. -/
theorem splitlinesL_single {l : List Char} (hne : l ≠ [])
    (hb : ∀ c ∈ l, isLineBoundary c = false) : splitlinesL l = [l] := by
  induction l with
  | nil => exact absurd rfl hne
  | cons c t ih =>
      rw [splitlinesL_cons_plain t (hb c (by simp))]
      cases t with
      | nil => simp [splitlinesL]
      | cons d ts =>
          rw [ih (by simp) (fun x hx => hb x (by simp [hx]))]

/-- Splitting after a boundary-free line followed by a newline. -/
theorem splitlinesL_append_nl {l1 : List Char} (rest : List Char)
    (hb : ∀ c ∈ l1, isLineBoundary c = false) :
    splitlinesL (l1 ++ '\n' :: rest) = l1 :: splitlinesL rest := by
  induction l1 with
  | nil =>
      simp only [List.nil_append]
      rw [splitlinesL_cons_boundary rest (by decide) (by decide)]
  | cons c t ih =>
      rw [List.cons_append, splitlinesL_cons_plain _ (hb c (by simp))]
      rw [ih (fun x hx => hb x (by simp [hx]))]

/-- `splitlines` inverts `"\n".join` for line lists whose lines are
boundary-free, provided the list is non-empty and does not end in an empty
line (a trailing empty line is absorbed by Python `splitlines`). -/
theorem splitlinesL_joinNL {L : List (List Char)} (hne : L ≠ [])
    (hlast : L.getLast? ≠ some [])
    (hb : ∀ l ∈ L, ∀ c ∈ l, isLineBoundary c = false) :
    splitlinesL (joinNL L) = L := by
  induction L with
  | nil => exact absurd rfl hne
  | cons x xs ih =>
      cases xs with
      | nil =>
          have hxne : x ≠ [] := by
            intro h
            subst h
            simp at hlast
          simp only [joinNL]
          exact splitlinesL_single hxne (hb x (by simp))
      | cons y ys =>
          have hjoin : joinNL (x :: y :: ys) = x ++ '\n' :: joinNL (y :: ys) := rfl
          rw [hjoin, splitlinesL_append_nl _ (hb x (by simp))]
          rw [ih (by simp) (by rwa [List.getLast?_cons_cons] at hlast)
            (fun l hl c hc => hb l (by simp [hl]) c hc)]

/-- Every character of every line of `splitlinesL cs` is a non-boundary
character of `cs`. -/
theorem splitlinesL_chars :
    ∀ (cs : List Char), ∀ l ∈ splitlinesL cs, ∀ c ∈ l,
      isLineBoundary c = false ∧ c ∈ cs := by
  intro cs
  induction cs using splitlinesL.induct with
  | case1 => simp [splitlinesL]
  | case2 r2 ih =>
      intro l hl c hc
      rw [splitlinesL_crlf] at hl
      rcases List.mem_cons.mp hl with h | h
      · subst h; simp at hc
      · have h2 := ih l h c hc
        exact ⟨h2.1, by simp [h2.2]⟩
  | case3 r hne ih =>
      intro l hl c hc
      rw [splitlinesL_cr r (fun r2 h => hne r2 h)] at hl
      rcases List.mem_cons.mp hl with h | h
      · subst h; simp at hc
      · have h2 := ih l h c hc
        exact ⟨h2.1, by simp [h2.2]⟩
  | case4 c0 rest hr hb ih =>
      intro l hl c hc
      rw [splitlinesL_cons_boundary rest hr (by simpa using hb)] at hl
      rcases List.mem_cons.mp hl with h | h
      · subst h; simp at hc
      · have h2 := ih l h c hc
        exact ⟨h2.1, by simp [h2.2]⟩
  | case5 c0 rest hr hb hnil ih =>
      intro l hl c hc
      rw [splitlinesL_cons_plain rest (by simpa using hb), hnil] at hl
      simp only [List.mem_singleton] at hl
      subst hl
      rcases List.mem_cons.mp hc with h | h
      · subst h
        exact ⟨by simpa using hb, by simp⟩
      · simp at h
  | case6 c0 rest hr hb l0 ls0 hcons ih =>
      intro l hl c hc
      rw [splitlinesL_cons_plain rest (by simpa using hb), hcons] at hl
      rcases List.mem_cons.mp hl with h | h
      · subst h
        rcases List.mem_cons.mp hc with h2 | h2
        · subst h2
          exact ⟨by simpa using hb, by simp⟩
        · have h3 := ih l0 (by rw [hcons]; simp) c h2
          exact ⟨h3.1, by simp [h3.2]⟩
      · have h3 := ih l (by rw [hcons]; simp [h]) c hc
        exact ⟨h3.1, by simp [h3.2]⟩

/-! ## Lemmas about `parse_csv_or_lines` (FlatListParse) -/

theorem mapRep_eq_self {ch : List Char} (h : ∀ c ∈ ch, c ≠ ',') :
    ch.map (fun c => if c = ',' then '\n' else c) = ch := by
  induction ch with
  | nil => rfl
  | cons c t ih =>
      simp only [List.map_cons, if_neg (h c (by simp)), List.cons.injEq, true_and]
      exact ih (fun x hx => h x (by simp [hx]))

theorem joinComma_map_rep {L : List (List Char)}
    (h : ∀ ch ∈ L, ∀ c ∈ ch, c ≠ ',') :
    (joinComma L).map (fun c => if c = ',' then '\n' else c) = joinNL L := by
  induction L with
  | nil => rfl
  | cons x xs ih =>
      cases xs with
      | nil =>
          simp only [joinComma, joinNL]
          exact mapRep_eq_self (h x (by simp))
      | cons y ys =>
          have hx : joinComma (x :: y :: ys) = x ++ ',' :: joinComma (y :: ys) := rfl
          have hn : joinNL (x :: y :: ys) = x ++ '\n' :: joinNL (y :: ys) := rfl
          rw [hx, hn, List.map_append, List.map_cons]
          rw [mapRep_eq_self (h x (by simp)), if_pos rfl]
          rw [ih (fun ch hch c hc => h ch (by simp [hch]) c hc)]

theorem mk_data_self (s : String) : String.mk s.data = s := by cases s; rfl

/-- C5: for every input, `parse_csv_or_lines` returns only trimmed non-empty
(hence not whitespace-only) comma-free elements; empty or whitespace-only
input yields the empty list; and any list of clean items joined by commas
(duplicates and order included) is recovered verbatim, so order equals first
occurrence in the input and duplicates are preserved. -/
theorem C5_flat_list_invariants :
    (∀ (txt : String), ∀ x ∈ parse_csv_or_lines txt,
        x ≠ "" ∧ pyStrip x = x ∧ ',' ∉ x.data) ∧
    (∀ (txt : String), stripL txt.data = [] → parse_csv_or_lines txt = []) ∧
    (∀ (l : List String),
        (∀ x ∈ l, x ≠ "" ∧ stripL x.data = x.data ∧
          ∀ c ∈ x.data, c ≠ ',' ∧ isLineBoundary c = false) →
        parse_csv_or_lines (strJoinComma l) = l) := by
  refine ⟨?_, ?_, ?_⟩
  · intro txt x hx
    unfold parse_csv_or_lines at hx
    by_cases h0 : txt = ""
    · rw [if_pos h0] at hx
      simp at hx
    · rw [if_neg h0] at hx
      obtain ⟨hmem, hne⟩ := List.mem_filter.mp hx
      have hne2 : x ≠ "" := by simpa using hne
      obtain ⟨line, hline, rfl⟩ := List.mem_map.mp hmem
      refine ⟨hne2, ?_, ?_⟩
      · unfold pyStrip
        rw [mk_data_eq, stripL_idem]
      · intro hc
        unfold pyStrip at hc
        rw [mk_data_eq] at hc
        have hc2 : (',' : Char) ∈ line.data := mem_stripL hc
        unfold pySplitlines at hline
        obtain ⟨lc, hlc, rfl⟩ := List.mem_map.mp hline
        rw [mk_data_eq] at hc2
        have hmem2 := (splitlinesL_chars _ lc hlc ',' hc2).2
        unfold pyReplaceCommaNL at hmem2
        rw [mk_data_eq] at hmem2
        obtain ⟨c0, _, heq⟩ := List.mem_map.mp hmem2
        by_cases h : c0 = ','
        · rw [if_pos h] at heq
          exact absurd heq (by decide)
        · rw [if_neg h] at heq
          exact h heq
  · intro txt hws
    by_cases h0 : txt = ""
    · simp [parse_csv_or_lines, h0]
    · unfold parse_csv_or_lines
      rw [if_neg h0]
      rw [List.filter_eq_nil_iff]
      intro x hx
      obtain ⟨line, hline, rfl⟩ := List.mem_map.mp hx
      obtain ⟨lc, hlc, rfl⟩ := List.mem_map.mp hline
      have hall : ∀ c ∈ lc, pyWs c = true := by
        intro c hc
        have hmem2 := (splitlinesL_chars _ lc hlc c hc).2
        unfold pyReplaceCommaNL at hmem2
        rw [mk_data_eq] at hmem2
        obtain ⟨c0, hc0, heq⟩ := List.mem_map.mp hmem2
        have hc0w : pyWs c0 = true := stripL_eq_nil_iff.mp hws c0 hc0
        by_cases h : c0 = ','
        · rw [h] at hc0w
          exact absurd hc0w (by decide)
        · rw [if_neg h] at heq
          rw [← heq]
          exact hc0w
      have : pyStrip (String.mk lc) = "" := by
        unfold pyStrip
        rw [mk_data_eq, stripL_eq_nil_iff.mpr hall]
      simp [this]
  · intro l hl
    cases l with
    | nil => decide
    | cons x0 xs =>
      have hx0 := hl x0 (by simp)
      have hne : strJoinComma (x0 :: xs) ≠ "" := by
        intro h
        have hdata := congrArg String.data h
        unfold strJoinComma at hdata
        rw [mk_data_eq] at hdata
        have hx0d : x0.data = [] := by
          cases xs with
          | nil => exact hdata
          | cons y ys =>
              have : x0.data ++ ',' :: joinComma ((y :: ys).map String.data) = [] := hdata
              have := List.append_eq_nil.mp this
              exact absurd this.2 (by simp)
        have : x0 = "" := by
          have := congrArg String.mk hx0d
          rwa [mk_data_self] at this
        exact hx0.1 this
      unfold parse_csv_or_lines
      rw [if_neg hne]
      have hrep : pyReplaceCommaNL (strJoinComma (x0 :: xs)) =
          String.mk (joinNL ((x0 :: xs).map String.data)) := by
        unfold pyReplaceCommaNL strJoinComma
        rw [mk_data_eq]
        congr 1
        exact joinComma_map_rep (by
          intro ch hch c hc
          obtain ⟨s, hs, rfl⟩ := List.mem_map.mp hch
          exact ((hl s hs).2.2 c hc).1)
      rw [hrep]
      unfold pySplitlines
      rw [mk_data_eq]
      rw [splitlinesL_joinNL (by simp) ?hlast ?hbf]
      case hlast =>
        intro hbad
        rw [List.getLast?_map] at hbad
        obtain ⟨s, hs, hsd⟩ := Option.map_eq_some'.mp hbad
        have hsl : s ∈ x0 :: xs := List.mem_of_getLast?_eq_some hs
        have : s = "" := by
          have := congrArg String.mk hsd
          rwa [mk_data_self] at this
        exact (hl s hsl).1 this
      case hbf =>
        intro ch hch c hc
        obtain ⟨s, hs, rfl⟩ := List.mem_map.mp hch
        exact ((hl s hs).2.2 c hc).2
      rw [List.map_map, List.map_map]
      have hone : (x0 :: xs).map ((pyStrip ∘ String.mk) ∘ String.data) = x0 :: xs := by
        refine (List.map_congr_left ?_).trans (List.map_id _)
        intro a ha
        show pyStrip (String.mk a.data) = a
        rw [mk_data_self]
        unfold pyStrip
        rw [(hl a ha).2.1, mk_data_self]
      rw [hone]
      rw [List.filter_eq_self.mpr]
      intro a ha
      simpa using (hl a ha).1

/-- Concrete instantiation of `C5_flat_list_invariants`. -/
theorem C5_flat_list_invariants_witness :
    ("FastAPI" ≠ "" ∧ pyStrip "FastAPI" = "FastAPI" ∧ ',' ∉ "FastAPI".data) ∧
    parse_csv_or_lines " \t " = [] ∧
    parse_csv_or_lines (strJoinComma ["x", "y", "x"]) = ["x", "y", "x"] :=
  ⟨C5_flat_list_invariants.1 "Python,FastAPI" "FastAPI" (by decide),
   C5_flat_list_invariants.2.1 " \t " (by decide),
   C5_flat_list_invariants.2.2 ["x", "y", "x"] (by decide)⟩

/-! ## Lemmas about `strJoinNL`, clean lines, and `parse_projects_blocks` -/

theorem str_data_ne_nil {s : String} (h : s ≠ "") : s.data ≠ [] := by
  intro hd
  apply h
  rw [← mk_data_self s, hd]

theorem pyStrip_eq_iff {s : String} : pyStrip s = s ↔ stripL s.data = s.data := by
  constructor
  · intro h
    have := congrArg String.data h
    rwa [pyStrip, mk_data_eq] at this
  · intro h
    rw [pyStrip, h, mk_data_self]

/-- A line as produced by `splitlines` plus strip: non-empty, strip-invariant
and free of line boundaries. -/
abbrev cleanLine (l : String) : Prop :=
  pyStrip l = l ∧ l ≠ "" ∧ ∀ c ∈ l.data, isLineBoundary c = false

theorem joinNL_cons_cons (x y : List Char) (r : List (List Char)) :
    joinNL (x :: y :: r) = x ++ '\n' :: joinNL (y :: r) := rfl

theorem joinNL_ne_nil {x : List Char} {xs : List (List Char)} (hx : x ≠ []) :
    joinNL (x :: xs) ≠ [] := by
  cases xs with
  | nil => exact hx
  | cons y ys =>
      rw [joinNL_cons_cons]
      simp

theorem joinNL_head? {x : List Char} {xs : List (List Char)} (hx : x ≠ []) :
    (joinNL (x :: xs)).head? = x.head? := by
  cases xs with
  | nil => rfl
  | cons y ys =>
      rw [joinNL_cons_cons]
      exact List.head?_append_of_ne_nil _ hx

theorem joinNL_getLast? {L : List (List Char)} (hL : L ≠ [])
    (hall : ∀ ch ∈ L, ch ≠ []) :
    ∃ ch, L.getLast? = some ch ∧ (joinNL L).getLast? = ch.getLast? := by
  induction L with
  | nil => exact absurd rfl hL
  | cons x xs ih =>
      cases xs with
      | nil => exact ⟨x, by simp, by simp [joinNL]⟩
      | cons y ys =>
          obtain ⟨ch, h1, h2⟩ := ih (by simp) (fun c hc => hall c (by simp [hc]))
          refine ⟨ch, ?_, ?_⟩
          · rw [List.getLast?_cons_cons]
            exact h1
          · rw [joinNL_cons_cons, List.getLast?_append_of_ne_nil _ (by simp)]
            have hJ : joinNL (y :: ys) ≠ [] :=
              joinNL_ne_nil (hall y (by simp))
            cases hJc : joinNL (y :: ys) with
            | nil => exact absurd hJc hJ
            | cons a as =>
                rw [hJc] at h2
                rw [List.getLast?_cons_cons]
                exact h2

/-- `splitlines` inverts `"\n".join` on lists of non-empty boundary-free
strings. -/
theorem pySplitlines_strJoinNL {l : List String} (hne : l ≠ [])
    (hl : ∀ x ∈ l, x ≠ "" ∧ ∀ c ∈ x.data, isLineBoundary c = false) :
    pySplitlines (strJoinNL l) = l := by
  unfold strJoinNL pySplitlines
  rw [mk_data_eq]
  rw [splitlinesL_joinNL (by simpa using hne) ?hlast ?hbf]
  case hlast =>
    intro hbad
    rw [List.getLast?_map] at hbad
    obtain ⟨s, hs, hsd⟩ := Option.map_eq_some'.mp hbad
    exact str_data_ne_nil (hl s (List.mem_of_getLast?_eq_some hs)).1 hsd
  case hbf =>
    intro ch hch c hc
    obtain ⟨s, hs, rfl⟩ := List.mem_map.mp hch
    exact (hl s hs).2 c hc
  rw [List.map_map]
  refine (List.map_congr_left ?_).trans (List.map_id _)
  intro a _
  exact mk_data_self a

/-- Joining non-empty strip-invariant lines with newlines is strip-invariant. -/
theorem pyStrip_strJoinNL {l : List String}
    (hl : ∀ x ∈ l, pyStrip x = x ∧ x ≠ "") :
    pyStrip (strJoinNL l) = strJoinNL l := by
  unfold pyStrip strJoinNL
  rw [mk_data_eq]
  congr 1
  cases l with
  | nil => rfl
  | cons x xs =>
      have hx := hl x (by simp)
      have hxd : x.data ≠ [] := str_data_ne_nil hx.2
      apply stripL_eq_self
      · intro c hc
        rw [show (x :: xs).map String.data = x.data :: xs.map String.data from rfl,
          joinNL_head? hxd] at hc
        exact stripL_eq_self_head (pyStrip_eq_iff.mp hx.1) c hc
      · intro c hc
        have hallne : ∀ ch ∈ (x :: xs).map String.data, ch ≠ [] := by
          intro ch2 hch2
          obtain ⟨s, hs, rfl⟩ := List.mem_map.mp hch2
          exact str_data_ne_nil (hl s hs).2
        obtain ⟨ch, h1, h2⟩ := joinNL_getLast? (L := (x :: xs).map String.data)
          (by simp) hallne
        rw [h2] at hc
        have hch : ch ∈ (x :: xs).map String.data := List.mem_of_getLast?_eq_some h1
        obtain ⟨s, hs, rfl⟩ := List.mem_map.mp hch
        exact stripL_eq_self_last (pyStrip_eq_iff.mp (hl s hs).1) c hc

/-- `or` on optional values, used to track the last assignment to `cur_link`. -/
def optOr (a b : Option String) : Option String :=
  match a with
  | some x => some x
  | none => b

theorem optOr_none_left (b : Option String) : optOr none b = b := rfl

theorem optOr_none_right (a : Option String) : optOr a none = a := by
  cases a <;> rfl

/-- One step of the project parser on a clean (stripped, non-blank) line. -/
theorem projStep_clean {st : ProjState} {l : String}
    (hstrip : pyStrip l = l) (hne : l ≠ "") :
    projStep st l =
      if st.title = "" then { st with title := l }
      else if isHttpB l then { st with link := some l }
      else { st with desc := st.desc ++ [l] } := by
  unfold projStep
  simp only [hstrip]
  rw [if_neg hne]

/-- Running the project parser over the body of a block (title already set):
non-link lines accumulate in order into the description, and the link is the
last link-shaped line if any. -/
theorem projRun_block {rest : List String} :
    ∀ (st : ProjState), st.title ≠ "" →
    (∀ l ∈ rest, pyStrip l = l ∧ l ≠ "") →
    rest.foldl projStep st =
      { title := st.title,
        desc := st.desc ++ rest.filter (fun l => !isHttpB l),
        link := optOr ((rest.filter (fun l => isHttpB l)).getLast?) st.link,
        blocks := st.blocks } := by
  induction rest with
  | nil =>
      intro st hst _
      simp [optOr]
  | cons x xs ih =>
      intro st hst hclean
      have hx := hclean x (by simp)
      rw [List.foldl_cons, projStep_clean hx.1 hx.2, if_neg hst]
      by_cases hhttp : isHttpB x
      · rw [if_pos hhttp]
        rw [ih { st with link := some x } hst (fun l hl => hclean l (by simp [hl]))]
        have hf1 : (x :: xs).filter (fun l => !isHttpB l) =
            xs.filter (fun l => !isHttpB l) := by
          rw [List.filter_cons, if_neg (by simp [hhttp])]
        have hf2 : (x :: xs).filter (fun l => isHttpB l) =
            x :: xs.filter (fun l => isHttpB l) := by
          rw [List.filter_cons, if_pos (by simp [hhttp])]
        rw [hf1, hf2]
        have hlink : optOr ((x :: xs.filter (fun l => isHttpB l)).getLast?) st.link
            = optOr ((xs.filter (fun l => isHttpB l)).getLast?) (some x) := by
          cases hfx : xs.filter (fun l => isHttpB l) with
          | nil => simp [optOr]
          | cons a as =>
              rw [List.getLast?_cons_cons]
              cases hlast : (a :: as).getLast? with
              | none => simp at hlast
              | some y => simp [optOr]
        rw [hlink]
      · rw [if_neg hhttp]
        rw [ih { st with desc := st.desc ++ [x] } hst
          (fun l hl => hclean l (by simp [hl]))]
        have hf1 : (x :: xs).filter (fun l => !isHttpB l) =
            x :: xs.filter (fun l => !isHttpB l) := by
          rw [List.filter_cons, if_pos (by simp [hhttp])]
        have hf2 : (x :: xs).filter (fun l => isHttpB l) =
            xs.filter (fun l => isHttpB l) := by
          rw [List.filter_cons, if_neg (by simp [hhttp])]
        rw [hf1, hf2]
        simp [List.append_assoc]

theorem strJoinNL_single (t : String) : strJoinNL [t] = t := by
  unfold strJoinNL
  rw [show ([t].map String.data) = [t.data] from rfl]
  rw [show joinNL [t.data] = t.data from rfl]

/-- Evaluation of `parse_projects_blocks` on one clean block: the title is
the first line, the description is the newline-join of the non-link body
lines in order, and the link is the last link-shaped body line (if any). -/
theorem projBlockEval {t : String} {rest : List String}
    (ht : cleanLine t) (hrest : ∀ l ∈ rest, cleanLine l) :
    parse_projects_blocks (strJoinNL (t :: rest)) =
      [(t, strJoinNL (rest.filter (fun l => !isHttpB l)),
        (rest.filter (fun l => isHttpB l)).getLast?)] := by
  unfold parse_projects_blocks
  rw [pySplitlines_strJoinNL (by simp) (by
    intro x hx
    rcases List.mem_cons.mp hx with h | h
    · subst h; exact ⟨ht.2.1, ht.2.2⟩
    · exact ⟨(hrest x h).2.1, (hrest x h).2.2⟩)]
  rw [List.foldl_cons]
  have hstep : projStep ⟨"", [], none, []⟩ t = ⟨t, [], none, []⟩ := by
    rw [projStep_clean ht.1 ht.2.1]
    rw [if_pos rfl]
  rw [hstep]
  rw [projRun_block ⟨t, [], none, []⟩ ht.2.1
    (fun l hl => ⟨(hrest l hl).1, (hrest l hl).2.1⟩)]
  unfold projFlush
  rw [if_pos (by simp [ht.2.1])]
  simp only [List.nil_append]
  rw [ht.1, optOr_none_right]
  rw [pyStrip_strJoinNL (by
    intro x hx
    have hm := hrest x (List.mem_of_mem_filter hx)
    exact ⟨hm.1, hm.2.1⟩)]

/-- A block consisting of a single clean line becomes a record with that
line as title, empty description and no link. -/
theorem proj_single_line_eval {t : String} (ht : cleanLine t) :
    parse_projects_blocks t = [(t, "", none)] := by
  have h := @projBlockEval t [] ht (by simp)
  rw [strJoinNL_single] at h
  simpa using h

/-! ## Section-parser invariant: flushed sections have non-empty lines -/

theorem secFlush_lines_ne_nil {st : SecState}
    (h : ∀ sec ∈ st.secs, sec.lines ≠ []) :
    ∀ sec ∈ (secFlush st).secs, sec.lines ≠ [] := by
  unfold secFlush
  split
  · rename_i hcond
    intro sec hsec
    rcases List.mem_append.mp hsec with h1 | h1
    · exact h sec h1
    · simp only [List.mem_singleton] at h1
      subst h1
      exact hcond.2
  · exact h

theorem secStep_lines_ne_nil {st : SecState} (raw : String)
    (h : ∀ sec ∈ st.secs, sec.lines ≠ []) :
    ∀ sec ∈ (secStep st raw).secs, sec.lines ≠ [] := by
  unfold secStep
  dsimp only
  split
  · exact secFlush_lines_ne_nil h
  · split
    · exact secFlush_lines_ne_nil h
    · split
      · exact h
      · split
        · exact h
        · exact h

theorem secRun_lines_ne_nil (lines : List String) :
    ∀ (st : SecState), (∀ sec ∈ st.secs, sec.lines ≠ []) →
    ∀ sec ∈ (lines.foldl secStep st).secs, sec.lines ≠ [] := by
  induction lines with
  | nil => exact fun st h => h
  | cons x xs ih =>
      intro st h
      rw [List.foldl_cons]
      exact ih _ (secStep_lines_ne_nil x h)

/-! ## Claims C1, C2, C9, C10 -/

/-- C1, counterexample.  The claim says a line is extracted as the link iff
it is the block's LAST line and starts with http(s)://.  On the block
`"T\nhttp://a\ndesc"` the middle line `http://a` is not the last line, so
under the claim it must stay in the description and the record must carry no
link; the code instead extracts it as the link and drops it from the
description. -/
theorem C1_link_iff_last_counterexample :
    parse_projects_blocks "T\nhttp://a\ndesc" ≠ [("T", "http://a\ndesc", none)] ∧
    parse_projects_blocks "T\nhttp://a\ndesc" = [("T", "desc", some "http://a")] := by
  constructor
  · decide
  · decide

/-- C1 (amended): within each blank-line-separated block, a non-title line
is extracted as a link candidate iff it starts with `http://` or
`https://`, regardless of its position; the record's link is the LAST such
line (if any), and every other non-title line is kept in the description,
joined with newline separators. -/
theorem C1_amended_link_extraction {t : String} {rest : List String}
    (ht : cleanLine t) (hrest : ∀ l ∈ rest, cleanLine l) :
    parse_projects_blocks (strJoinNL (t :: rest)) =
      [(t, strJoinNL (rest.filter (fun l => !isHttpB l)),
        (rest.filter (fun l => isHttpB l)).getLast?)] :=
  projBlockEval ht hrest

/-- Concrete instantiation of `C1_amended_link_extraction`. -/
theorem C1_amended_link_extraction_witness :
    parse_projects_blocks (strJoinNL ["T", "http://a", "desc"]) =
      [("T", strJoinNL (["http://a", "desc"].filter (fun l => !isHttpB l)),
        (["http://a", "desc"].filter (fun l => isHttpB l)).getLast?)] :=
  @C1_amended_link_extraction "T" ["http://a", "desc"] (by decide) (by decide)

/-- C2: `parse_sections_text` never emits a section with an empty list of
lines (title-only sections are dropped), while `parse_projects_blocks` on a
block consisting of a single clean title line emits a record with that
title, empty description and no link (title-only project blocks are kept). -/
theorem C2_title_only_asymmetry :
    (∀ (txt : String), ∀ sec ∈ parse_sections_text txt, sec.lines ≠ []) ∧
    (∀ (t : String), cleanLine t → parse_projects_blocks t = [(t, "", none)]) := by
  constructor
  · intro txt sec hsec
    unfold parse_sections_text at hsec
    exact secFlush_lines_ne_nil
      (secRun_lines_ne_nil (pySplitlines txt) ⟨"", [], []⟩ (by simp)) sec hsec
  · intro t ht
    exact proj_single_line_eval ht

/-- Concrete instantiation of `C2_title_only_asymmetry`. -/
theorem C2_title_only_asymmetry_witness :
    (⟨"K", ["B"]⟩ : Sec).lines ≠ [] ∧
    parse_projects_blocks "Solo" = [("Solo", "", none)] :=
  ⟨C2_title_only_asymmetry.1 "[K]\n- B" ⟨"K", ["B"]⟩ (by decide),
   C2_title_only_asymmetry.2 "Solo" (by decide)⟩

/-- C9: when a block's body contains at least two link-shaped lines, the
record's link is the last of them and every earlier one is omitted from
both the link field and the description (the description keeps exactly the
non-link lines). -/
theorem C9_last_link_wins {t : String} {rest hs : List String} {x : String}
    (ht : cleanLine t) (hrest : ∀ l ∈ rest, cleanLine l)
    (hfilter : rest.filter (fun l => isHttpB l) = hs ++ [x]) (_hhs : hs ≠ []) :
    parse_projects_blocks (strJoinNL (t :: rest)) =
      [(t, strJoinNL (rest.filter (fun l => !isHttpB l)), some x)] := by
  rw [projBlockEval ht hrest, hfilter, List.getLast?_concat]

/-- Concrete instantiation of `C9_last_link_wins`. -/
theorem C9_last_link_wins_witness :
    parse_projects_blocks (strJoinNL ["T", "http://a", "http://b", "x"]) =
      [("T", strJoinNL (["http://a", "http://b", "x"].filter (fun l => !isHttpB l)),
        some "http://b")] :=
  @C9_last_link_wins "T" ["http://a", "http://b", "x"] ["http://a"] "http://b"
    (by decide) (by decide) (by decide) (by decide)

/-- C10: the first line of a clean block always becomes the title, even if
it is link-shaped (link extraction only applies to later lines); a block
whose only line is a URL yields a record with that URL as title and no
link. -/
theorem C10_title_even_if_url :
    (∀ (t : String) (rest : List String), cleanLine t → (∀ l ∈ rest, cleanLine l) →
      (parse_projects_blocks (strJoinNL (t :: rest))).map (fun r => r.1) = [t]) ∧
    (∀ (u : String), cleanLine u → isHttpB u = true →
      parse_projects_blocks u = [(u, "", none)]) := by
  constructor
  · intro t rest ht hrest
    rw [projBlockEval ht hrest]
    rfl
  · intro u hu _
    exact proj_single_line_eval hu

/-- Concrete instantiation of `C10_title_even_if_url`. -/
theorem C10_title_even_if_url_witness :
    (parse_projects_blocks (strJoinNL ["https://x.io", "d"])).map (fun r => r.1) =
      ["https://x.io"] ∧
    parse_projects_blocks "https://solo.example" =
      [("https://solo.example", "", none)] :=
  ⟨C10_title_even_if_url.1 "https://x.io" ["d"] (by decide) (by decide),
   C10_title_even_if_url.2 "https://solo.example" (by decide) (by decide)⟩

/-- C7: in `parse_sections_text`, a non-blank line that is neither
`[...]`-shaped nor bullet-shaped is a continuation: if the current section
already has at least one line item, the (stripped) line is appended
space-joined to the last item; otherwise, if no title is set yet, the line
itself becomes the implicit title. -/
theorem C7_continuation_rule (st : SecState) (raw : String)
    (hne : stripL raw.data ≠ [])
    (htitle : (listPre ['['] (stripL raw.data) &&
      listPre [']'] (stripL raw.data).reverse) = false)
    (hbullet : bulletHead (stripL raw.data) = false) :
    (∀ (pre : List String) (x : String), st.lines = pre ++ [x] →
      secStep st raw =
        { st with lines := pre ++ [x ++ " " ++ String.mk (stripL raw.data)] }) ∧
    (st.lines = [] → st.title = "" →
      secStep st raw = { st with title := String.mk (stripL raw.data) }) := by
  constructor
  · intro pre x hlines
    unfold secStep
    dsimp only
    rw [if_neg hne, if_neg (by simp [htitle]), if_neg (by simp [hbullet]),
      if_pos (by rw [hlines]; simp)]
    rw [hlines, List.dropLast_concat, List.getLastD_concat]
  · intro h1 h2
    unfold secStep
    dsimp only
    rw [if_neg hne, if_neg (by simp [htitle]), if_neg (by simp [hbullet]),
      if_neg (by simp [h1]), if_neg (by simp [h2])]

/-- Concrete instantiation of `C7_continuation_rule`. -/
theorem C7_continuation_rule_witness :
    secStep ⟨"T", ["a"], []⟩ "cont" = ⟨"T", ["a cont"], []⟩ ∧
    secStep ⟨"", [], []⟩ "Implicit title" = ⟨"Implicit title", [], []⟩ :=
  ⟨((C7_continuation_rule ⟨"T", ["a"], []⟩ "cont" (by decide) (by decide)
      (by decide)).1 [] "a" rfl).trans (by decide),
   ((C7_continuation_rule ⟨"", [], []⟩ "Implicit title" (by decide) (by decide)
      (by decide)).2 rfl rfl).trans (by decide)⟩

/-! ## Lemmas about the language-level regex model (claims C3 and C6) -/

theorem dropWhile_ws_append {s1 : List Char} {c : Char} {rest : List Char}
    (hs1 : ∀ x ∈ s1, pyWs x = true) (hc : pyWs c = false) :
    (s1 ++ c :: rest).dropWhile pyWs = c :: rest := by
  induction s1 with
  | nil =>
      rw [List.nil_append]
      exact List.dropWhile_cons_of_neg (by simp [hc])
  | cons a t ih =>
      rw [List.cons_append, List.dropWhile_cons_of_pos (hs1 a (by simp))]
      exact ih (fun x hx => hs1 x (by simp [hx]))

theorem sepCharB_not_ws {sep : Char} (h : sepCharB sep = true) : pyWs sep = false := by
  have h2 : sep = '-' ∨ sep = '–' ∨ sep = ':' := by
    simpa [sepCharB, decide_eq_true_eq, or_assoc] using h
  rcases h2 with h2 | h2 | h2 <;> subst h2 <;> decide

theorem cefrAlphaB_not_ws {a : Char} (h : cefrAlphaB a = true) : pyWs a = false := by
  have h2 : a = 'a' ∨ a = 'b' ∨ a = 'c' ∨ a = 'A' ∨ a = 'B' ∨ a = 'C' := by
    simpa [cefrAlphaB, decide_eq_true_eq, or_assoc] using h
  rcases h2 with h2 | h2 | h2 | h2 | h2 | h2 <;> subst h2 <;> decide

theorem digit12B_not_ws {b : Char} (h : digit12B b = true) : pyWs b = false := by
  have h2 : b = '1' ∨ b = '2' := by
    simpa [digit12B, decide_eq_true_eq, or_assoc] using h
  rcases h2 with h2 | h2 <;> subst h2 <;> decide

/-- `matchRest` succeeds on whitespace-separator-whitespace-code-end tails. -/
theorem matchRest_tail {s1 s2 : List Char} {sep a b : Char}
    (hs1 : ∀ x ∈ s1, pyWs x = true) (hs2 : ∀ x ∈ s2, pyWs x = true)
    (hsep : sepCharB sep = true) (ha : cefrAlphaB a = true)
    (hb : digit12B b = true) :
    matchRest (s1 ++ sep :: (s2 ++ [a, b])) = some (a, b) := by
  unfold matchRest
  rw [dropWhile_ws_append hs1 (sepCharB_not_ws hsep)]
  dsimp only
  rw [if_pos hsep]
  rw [show s2 ++ [a, b] = s2 ++ a :: [b] from rfl,
    dropWhile_ws_append hs2 (cefrAlphaB_not_ws ha)]
  dsimp only
  rw [if_pos (by simp [ha, hb])]

/-- The lazy scan finds the split exactly at the end of the language prefix
when no earlier split admits a match. -/
theorem scanFrom_through {lang : List Char} :
    ∀ (pre tail : List Char) {a b : Char}, lang ≠ [] → '\n' ∉ lang →
    (∀ i, 1 ≤ i → i < lang.length → matchRest (lang.drop i ++ tail) = none) →
    matchRest tail = some (a, b) →
    scanFrom pre (lang ++ tail) = some (pre ++ lang, a, b) := by
  induction lang with
  | nil =>
      intro pre tail a b h
      exact absurd rfl h
  | cons c l ih =>
      intro pre tail a b _ hnl hmiss hmatch
      rw [List.cons_append, scanFrom.eq_2,
        if_neg (fun hc => hnl (by simp [hc]))]
      cases l with
      | nil =>
          rw [List.nil_append, hmatch]
      | cons d ds =>
          have h1 : matchRest ((d :: ds) ++ tail) = none := by
            have h2 := hmiss 1 (by omega) (by simp)
            simpa using h2
          rw [h1]
          have h3 := ih (pre ++ [c]) tail (by simp)
            (fun hx => hnl (by simp [hx]))
            (fun i h1i hlt => by
              have h4 := hmiss (i + 1) (by omega)
                (by simpa using Nat.succ_lt_succ hlt)
              simpa using h4)
            hmatch
          rw [h3]
          simp

/-- C3, counterexample.  `" Klingon "` admits no match of the level pattern
at all, yet the function returns `"Klingon"`, not the input `" Klingon "`
"exactly as given": the input is stripped before matching and the stripped
value is what passes through. -/
theorem C3_passthrough_counterexample :
    scanFrom [] (pyStrip " Klingon ").data = none ∧
    normalize_language_level " Klingon " ≠ " Klingon " ∧
    normalize_language_level " Klingon " = "Klingon" := by
  refine ⟨by decide, by decide, by decide⟩

/-- C3 (amended): whenever the start-anchored lazy pattern finds no match in
the STRIPPED input, `normalize_language_level` returns the stripped input
(so leading/trailing whitespace is removed even on pass-through).  Moreover
the pattern is terminated by a word boundary rather than the end of the
string, so a CEFR code followed by a non-word character and further text
still matches and is rewritten (second conjunct). -/
theorem C3_no_match_passthrough :
    (∀ (label : String), scanFrom [] (pyStrip label).data = none →
      normalize_language_level label = pyStrip label) ∧
    normalize_language_level "English - B2 and more" = "English – Gute Kenntnisse" := by
  constructor
  · intro label h
    unfold normalize_language_level
    dsimp only
    rw [h]
  · decide

/-- Concrete instantiation of `C3_no_match_passthrough`. -/
theorem C3_no_match_passthrough_witness :
    normalize_language_level "Klingon" = pyStrip "Klingon" :=
  C3_no_match_passthrough.1 "Klingon" (by decide)

/-- The claim's 4-label bucket table keyed on the raw CEFR code characters
(case-insensitive first character, level digit): A1/A2 share one label,
B1/B2 another, C1 its own, C2 the distinct top label. -/
def bucketLabel (a b : Char) : String :=
  if pyLower a = 'a' then "Grundkenntnisse"
  else if pyLower a = 'b' then "Gute Kenntnisse"
  else if pyLower a = 'c' ∧ b = '1' then "Sehr gute Kenntnisse"
  else "Verhandlungssicher"

/-- C6, counterexample.  The input `"X - B1 - A1"` has the claimed shape
`<language> <sep> <code>` with language `"X - B1"`, separator `-` and code
`A1`, so under the claim the output would be `"X - B1 – Grundkenntnisse"`;
the lazy regex instead stops at the FIRST separator-code occurrence and
returns `"X – Gute Kenntnisse"`. -/
theorem C6_shape_counterexample :
    normalize_language_level "X - B1 - A1" = "X – Gute Kenntnisse" ∧
    "X – Gute Kenntnisse" ≠ "X - B1 – Grundkenntnisse" := by
  refine ⟨by decide, by decide⟩

/-- C6 (amended): for inputs `<language><ws><sep><ws><code>` whose language
prefix is clean (non-empty, strip-invariant, newline-free) and admits no
earlier separator-code match, the output is `"<language> – <bucket label>"`
per the fixed table; the table maps A1/A2, B1/B2 to shared labels and C1,
C2 to distinct ones (4 distinct labels over 6 codes); and the two spec
examples hold, including `"Klingon"` passing through unchanged. -/
theorem C6_match_and_table :
    (∀ (lang s1 s2 : String) (sep a b : Char),
      lang ≠ "" → pyStrip lang = lang → '\n' ∉ lang.data →
      (∀ x ∈ s1.data, pyWs x = true) → (∀ x ∈ s2.data, pyWs x = true) →
      sepCharB sep = true → cefrAlphaB a = true → digit12B b = true →
      (∀ i, i < lang.data.length → 1 ≤ i →
        matchRest (lang.data.drop i ++ (s1.data ++ sep :: (s2.data ++ [a, b]))) = none) →
      normalize_language_level
          (lang ++ s1 ++ String.mk [sep] ++ s2 ++ String.mk [a, b]) =
        lang ++ " – " ++ bucketLabel a b) ∧
    normalize_language_level "English - B2" = "English – Gute Kenntnisse" ∧
    normalize_language_level "Klingon" = "Klingon" ∧
    (bucketLabel 'a' '1' = bucketLabel 'a' '2' ∧
     bucketLabel 'b' '1' = bucketLabel 'b' '2' ∧
     bucketLabel 'a' '1' ≠ bucketLabel 'b' '1' ∧
     bucketLabel 'a' '1' ≠ bucketLabel 'c' '1' ∧
     bucketLabel 'a' '1' ≠ bucketLabel 'c' '2' ∧
     bucketLabel 'b' '1' ≠ bucketLabel 'c' '1' ∧
     bucketLabel 'b' '1' ≠ bucketLabel 'c' '2' ∧
     bucketLabel 'c' '1' ≠ bucketLabel 'c' '2') := by
  refine ⟨?_, by decide, by decide, by decide⟩
  intro lang s1 s2 sep a b hlangne hlanginv hlangnl hs1 hs2 hsep ha hb hmiss
  have hdata : (lang ++ s1 ++ String.mk [sep] ++ s2 ++ String.mk [a, b]).data
      = lang.data ++ (s1.data ++ sep :: (s2.data ++ [a, b])) := by
    simp [strData_append, mk_data_eq, List.append_assoc]
  have hbw : pyWs b = false := digit12B_not_ws hb
  have hstrip : pyStrip (lang ++ s1 ++ String.mk [sep] ++ s2 ++ String.mk [a, b])
      = lang ++ s1 ++ String.mk [sep] ++ s2 ++ String.mk [a, b] := by
    apply pyStrip_eq_iff.mpr
    rw [hdata]
    apply stripL_eq_self
    · intro c hc
      rw [List.head?_append_of_ne_nil _ (str_data_ne_nil hlangne)] at hc
      exact stripL_eq_self_head (pyStrip_eq_iff.mp hlanginv) c hc
    · intro c hc
      rw [show lang.data ++ (s1.data ++ sep :: (s2.data ++ [a, b]))
            = (lang.data ++ (s1.data ++ sep :: (s2.data ++ [a]))) ++ [b] from by
          simp [List.append_assoc]] at hc
      rw [List.getLast?_concat] at hc
      simp only [Option.mem_def, Option.some.injEq] at hc
      subst hc
      exact hbw
  have hscan : scanFrom [] (lang.data ++ (s1.data ++ sep :: (s2.data ++ [a, b])))
      = some (lang.data, a, b) := by
    have h := @scanFrom_through lang.data []
      (s1.data ++ sep :: (s2.data ++ [a, b])) a b
      (str_data_ne_nil hlangne) hlangnl
      (fun i h1 h2 => hmiss i h2 h1)
      (matchRest_tail hs1 hs2 hsep ha hb)
    simpa using h
  have hlabel : ((cefrMap (String.mk [pyLower a, pyLower b])).getD (String.mk [a, b]))
      = bucketLabel a b := by
    have ha2 : a = 'a' ∨ a = 'b' ∨ a = 'c' ∨ a = 'A' ∨ a = 'B' ∨ a = 'C' := by
      simpa [cefrAlphaB, decide_eq_true_eq, or_assoc] using ha
    have hb2 : b = '1' ∨ b = '2' := by
      simpa [digit12B, decide_eq_true_eq, or_assoc] using hb
    rcases ha2 with h | h | h | h | h | h <;> rcases hb2 with h2 | h2 <;>
      subst h <;> subst h2 <;> decide
  unfold normalize_language_level
  dsimp only
  rw [hstrip, hdata, hscan]
  dsimp only
  rw [mk_data_self, hlanginv, hlabel]

/-- Concrete instantiation of `C6_match_and_table`. -/
theorem C6_match_and_table_witness :
    normalize_language_level
        ("Spanish" ++ " " ++ String.mk [':'] ++ " " ++ String.mk ['c', '1']) =
      "Spanish" ++ " – " ++ bucketLabel 'c' '1' :=
  C6_match_and_table.1 "Spanish" " " " " ':' 'c' '1' (by decide) (by decide)
    (by decide) (by decide) (by decide) (by decide) (by decide) (by decide)
    (by decide)

/-! ## Lemmas about the URL model (claim C8) -/

theorem listPre_append_self (p t : List Char) : listPre p (p ++ t) = true := by
  induction p with
  | nil => rfl
  | cons c cs ih => simp [listPre, ih]

theorem hasSubstr_of_pre {l pat : List Char} (h : listPre pat l = true) :
    hasSubstr l pat = true := by
  cases l with
  | nil =>
      cases pat with
      | nil => rfl
      | cons p ps => simp [listPre] at h
  | cons c t => simp [hasSubstr, h]

theorem hasSubstr_cons {t pat : List Char} (c : Char)
    (h : hasSubstr t pat = true) : hasSubstr (c :: t) pat = true := by
  simp [hasSubstr, h]

theorem hasSubstr_append_left {t pat : List Char} (s : List Char)
    (h : hasSubstr t pat = true) : hasSubstr (s ++ t) pat = true := by
  induction s with
  | nil => exact h
  | cons c cs ih => exact hasSubstr_cons c ih

theorem takeWhile_stop {p : Char → Bool} {pre : List Char} {c : Char}
    {rest : List Char} (hpre : ∀ x ∈ pre, p x = true) (hc : p c = false) :
    (pre ++ c :: rest).takeWhile p = pre := by
  induction pre with
  | nil =>
      rw [List.nil_append]
      simp [List.takeWhile_cons, hc]
  | cons a t ih =>
      rw [List.cons_append, List.takeWhile_cons, if_pos (hpre a (by simp))]
      rw [ih (fun x hx => hpre x (by simp [hx]))]

theorem splitScheme_https (rest : List Char) :
    splitScheme ("https://".data ++ rest) = '/' :: '/' :: rest := by
  unfold splitScheme
  dsimp only
  have h1 : ("https://".data ++ rest).takeWhile (fun c => c != ':') =
      "https".data := by
    rw [show "https://".data ++ rest = "https".data ++ ':' :: ('/' :: '/' :: rest)
      from rfl]
    exact takeWhile_stop (by decide) (by decide)
  rw [h1]
  rw [show ("https://".data ++ rest).drop ("https".data.length) =
    ':' :: '/' :: '/' :: rest from
      @List.drop_left' Char "https".data (':' :: '/' :: '/' :: rest)
        ("https".data.length) rfl]
  rfl

theorem splitSlash_no_slash {l : List Char} (h : ∀ c ∈ l, c ≠ '/') :
    splitSlash l = [l] := by
  induction l with
  | nil => rfl
  | cons c t ih =>
      unfold splitSlash
      rw [if_neg (h c (by simp))]
      rw [ih (fun x hx => h x (by simp [hx]))]

theorem contains_eq_false_of_not_mem {l : List Char} {a : Char} (h : a ∉ l) :
    l.contains a = false := by
  simp [List.contains, h]

theorem urlNetlocPath_github {host h : String}
    (hhost : ∀ c ∈ host.data, netlocStop c = false ∧ c ≠ '[' ∧ c ≠ ']')
    (hh : ∀ c ∈ h.data, c ≠ '/' ∧ c ≠ '?' ∧ c ≠ '#') :
    urlNetlocPath ("https://" ++ host ++ "/" ++ h) =
      some (host, String.mk ('/' :: h.data)) := by
  unfold urlNetlocPath
  have hdata : ("https://" ++ host ++ "/" ++ h).data =
      "https://".data ++ (host.data ++ '/' :: h.data) := by
    simp [strData_append, List.append_assoc]
  rw [hdata, splitScheme_https]
  dsimp only
  have hpre : listPre ['/', '/'] ('/' :: '/' :: (host.data ++ '/' :: h.data)) = true := by
    simp [listPre]
  rw [if_pos hpre]
  dsimp only
  have hdrop : ('/' :: '/' :: (host.data ++ '/' :: h.data)).drop 2 =
      host.data ++ '/' :: h.data := rfl
  rw [hdrop]
  have hnl : (host.data ++ '/' :: h.data).takeWhile (fun c => !netlocStop c) =
      host.data :=
    takeWhile_stop (fun x hx => by simp [(hhost x hx).1]) (by decide)
  rw [hnl, List.drop_left' rfl]
  have hb1 : host.data.contains '[' = false :=
    contains_eq_false_of_not_mem (fun hm => (hhost _ hm).2.1 rfl)
  have hb2 : host.data.contains ']' = false :=
    contains_eq_false_of_not_mem (fun hm => (hhost _ hm).2.2 rfl)
  rw [if_neg (by rw [hb1, hb2]; decide)]
  have hp1 : ('/' :: h.data).takeWhile (fun c => c != '#') = '/' :: h.data := by
    rw [List.takeWhile_eq_self_iff]
    intro x hx
    rcases List.mem_cons.mp hx with h1 | h1
    · subst h1; decide
    · simp [(hh x h1).2.2]
  have hp2 : ('/' :: h.data).takeWhile (fun c => c != '?') = '/' :: h.data := by
    rw [List.takeWhile_eq_self_iff]
    intro x hx
    rcases List.mem_cons.mp hx with h1 | h1
    · subst h1; decide
    · simp [(hh x h1).2.1]
  rw [hp1, hp2, mk_data_self]

theorem pathParts_single {h : String} (hne : h ≠ "")
    (hh : ∀ c ∈ h.data, c ≠ '/') :
    pathParts (String.mk ('/' :: h.data)) = [h] := by
  unfold pathParts stripSlashes
  rw [mk_data_eq]
  have h1 : ('/' :: h.data).dropWhile (· == '/') = h.data := by
    rw [List.dropWhile_cons_of_pos (by simp)]
    apply dropWhile_eq_self_of_head
    intro c hc
    simp [hh c (List.mem_of_mem_head? hc)]
  rw [h1]
  have h2 : h.data.reverse.dropWhile (· == '/') = h.data.reverse := by
    apply dropWhile_eq_self_of_head
    intro c hc
    rw [List.head?_reverse] at hc
    have hm : c ∈ h.data := List.mem_of_getLast?_eq_some (Option.mem_def.mp hc)
    simp [hh c hm]
  rw [h2, List.reverse_reverse]
  rw [splitSlash_no_slash hh]
  simp [mk_data_self, hne]

theorem contains_eq_true_of_mem {l : List Char} {a : Char} (h : a ∈ l) :
    l.contains a = true := by
  simp [List.contains, h]

/-- C8: social-handle normalization never errors — unmatched shapes yield
`none` (no link) — and for GitHub: a bare handle (no `/`, no space, no `:`)
maps to `(handle, https://github.com/<handle>)`; a full URL whose host
contains `github.com` maps to its first path segment; every successful
GitHub result has the canonical `https://github.com/<handle>` URL shape;
and the unrecognized value `"not a url"` yields no match. -/
theorem C8_social_handle :
    (∀ (v : String), pyStrip v ≠ "" →
      (pyStrip v).data.contains '/' = false →
      (pyStrip v).data.contains ' ' = false →
      (pyStrip v).data.contains ':' = false →
      extract_social_handle "GitHub" v =
        some (pyStrip v, "https://github.com/" ++ pyStrip v)) ∧
    (∀ (host h : String),
      hasSubstr (strLower host).data "github.com".data = true →
      (∀ c ∈ host.data, netlocStop c = false ∧ c ≠ '[' ∧ c ≠ ']' ∧ pyWs c = false) →
      h ≠ "" → (∀ c ∈ h.data, c ≠ '/' ∧ c ≠ '?' ∧ c ≠ '#' ∧ pyWs c = false) →
      extract_social_handle "GitHub" ("https://" ++ host ++ "/" ++ h) =
        some (h, "https://github.com/" ++ h)) ∧
    (∀ (v handle url : String),
      extract_social_handle "GitHub" v = some (handle, url) →
      url = "https://github.com/" ++ handle) ∧
    extract_social_handle "GitHub" "not a url" = none := by
  refine ⟨?_, ?_, ?_, by decide⟩
  · intro v hne h1 h2 h3
    unfold extract_social_handle
    dsimp only
    rw [if_neg hne, if_pos (by rw [h1, h2, h3]; decide), if_pos rfl]
  · intro host h hgh hhost hne hh
    have hdata : ("https://" ++ host ++ "/" ++ h).data =
        "https://".data ++ (host.data ++ '/' :: h.data) := by
      simp [strData_append, List.append_assoc]
    have hstrip : pyStrip ("https://" ++ host ++ "/" ++ h) =
        "https://" ++ host ++ "/" ++ h := by
      apply pyStrip_eq_iff.mpr
      rw [hdata]
      apply stripL_eq_self
      · intro c hc
        rw [List.head?_append_of_ne_nil _ (by decide)] at hc
        simp only [show ("https://".data).head? = some 'h' from rfl,
          Option.mem_def, Option.some.injEq] at hc
        subst hc
        decide
      · intro c hc
        rw [List.getLast?_append_of_ne_nil _ (by simp),
          List.getLast?_append_of_ne_nil _ (by simp)] at hc
        cases hhd : h.data with
        | nil => exact absurd hhd (str_data_ne_nil hne)
        | cons d ds =>
            rw [hhd, List.getLast?_cons_cons] at hc
            have hm : c ∈ h.data := by
              rw [hhd]
              exact List.mem_of_getLast?_eq_some (Option.mem_def.mp hc)
            exact (hh c hm).2.2.2
    have hurlne : ("https://" ++ host ++ "/" ++ h) ≠ "" := by
      intro hbad
      have := congrArg String.data hbad
      rw [hdata] at this
      simp at this
    have hc1 : ("https://" ++ host ++ "/" ++ h).data.contains '/' = true := by
      apply contains_eq_true_of_mem
      rw [hdata]
      exact List.mem_append_left _ (by decide)
    have hsub : hasSubstr ("https://" ++ host ++ "/" ++ h).data "://".data = true := by
      rw [hdata,
        show "https://".data ++ (host.data ++ '/' :: h.data) =
          "https".data ++ ("://".data ++ (host.data ++ '/' :: h.data)) from rfl]
      exact hasSubstr_append_left _ (hasSubstr_of_pre (listPre_append_self _ _))
    unfold extract_social_handle
    dsimp only
    rw [hstrip, if_neg hurlne,
      if_neg (by rw [hc1]; simp), if_pos rfl, if_pos hsub]
    rw [urlNetlocPath_github (fun c hc => ⟨(hhost c hc).1, (hhost c hc).2.1, (hhost c hc).2.2.1⟩)
      (fun c hc => ⟨(hh c hc).1, (hh c hc).2.1, (hh c hc).2.2.1⟩)]
    dsimp only
    rw [if_pos hgh]
    rw [pathParts_single hne (fun c hc => (hh c hc).1)]
  · intro v handle url hvu
    unfold extract_social_handle at hvu
    dsimp only at hvu
    by_cases h0 : pyStrip v = ""
    · rw [if_pos h0] at hvu
      cases hvu
    · rw [if_neg h0] at hvu
      by_cases hbare : (!(pyStrip v).data.contains '/' &&
          !(pyStrip v).data.contains ' ' && !(pyStrip v).data.contains ':') = true
      · rw [if_pos hbare, if_pos rfl] at hvu
        simp only [Option.some.injEq, Prod.mk.injEq] at hvu
        rw [← hvu.1, ← hvu.2]
      · rw [if_neg hbare, if_pos rfl] at hvu
        cases hnp : urlNetlocPath (if hasSubstr (pyStrip v).data "://".data = true
            then pyStrip v else "https://" ++ pyStrip v) with
        | none =>
            rw [hnp] at hvu
            cases hvu
        | some np =>
            obtain ⟨netloc, path⟩ := np
            rw [hnp] at hvu
            dsimp only at hvu
            by_cases hgh : hasSubstr (strLower netloc).data "github.com".data = true
            · rw [if_pos hgh] at hvu
              cases hpp : pathParts path with
              | nil =>
                  rw [hpp] at hvu
                  cases hvu
              | cons p0 ps =>
                  rw [hpp] at hvu
                  simp only [Option.some.injEq, Prod.mk.injEq] at hvu
                  rw [← hvu.1, ← hvu.2]
            · rw [if_neg hgh] at hvu
              cases hvu

/-- Concrete instantiation of `C8_social_handle`. -/
theorem C8_social_handle_witness :
    extract_social_handle "GitHub" "octocat" =
      some (pyStrip "octocat", "https://github.com/" ++ pyStrip "octocat") ∧
    extract_social_handle "GitHub" ("https://" ++ "github.com" ++ "/" ++ "octocat") =
      some ("octocat", "https://github.com/" ++ "octocat") ∧
    "https://github.com/x" = "https://github.com/" ++ "x" :=
  ⟨C8_social_handle.1 "octocat" (by decide) (by decide) (by decide) (by decide),
   C8_social_handle.2.1 "github.com" "octocat" (by decide) (by decide) (by decide)
     (by decide),
   C8_social_handle.2.2.1 "x" "x" "https://github.com/x" (by decide)⟩

/-! ## Claim C4: serialize-reparse round trip for `parse_sections_text` -/

/-- The claim's canonical serialization of one section: a `[title]` line
followed by one `- line` per line item (stated from the claim's words, to
be compared against the parser). -/
def serializeSection (sec : Sec) : List String :=
  ("[" ++ sec.title ++ "]") :: sec.lines.map (fun l => "- " ++ l)

/-- Chunks of lines separated by one blank line. -/
def joinBlank : List (List String) → List String
  | [] => []
  | [x] => x
  | x :: y :: r => x ++ "" :: joinBlank (y :: r)

/-- The claim's canonical serialization of a section list. -/
def canonicalSerialize (ss : List Sec) : String :=
  strJoinNL (joinBlank (ss.map serializeSection))

/-- Structural facts that hold of every section `parse_sections_text`
emits: non-empty strip-invariant boundary-free title, non-empty lines,
boundary-free items. -/
def SecBase (sec : Sec) : Prop :=
  sec.title ≠ "" ∧ pyStrip sec.title = sec.title ∧
  (∀ c ∈ sec.title.data, isLineBoundary c = false) ∧
  sec.lines ≠ [] ∧
  ∀ l ∈ sec.lines, ∀ c ∈ l.data, isLineBoundary c = false

/-- `SecBase` plus strip-invariance of every item: exactly the sections the
round trip preserves. -/
def SecOK (sec : Sec) : Prop :=
  SecBase sec ∧ ∀ l ∈ sec.lines, pyStrip l = l

theorem stripL_reverse_dropWhile {l : List Char} (h : stripL l = l) :
    l.reverse.dropWhile pyWs = l.reverse := by
  have hd := stripL_dropWhile_eq_self h
  have h3 : stripL l = (l.reverse.dropWhile pyWs).reverse := by
    unfold stripL
    rw [hd]
  rw [h] at h3
  have h4 := congrArg List.reverse h3
  rw [List.reverse_reverse] at h4
  exact h4.symm

theorem stripL_cons_ws {c : Char} {X : List Char} (hc : pyWs c = true)
    (hX : stripL X = X) : stripL (c :: X) = X := by
  have h1 : (c :: X).dropWhile pyWs = X.dropWhile pyWs :=
    List.dropWhile_cons_of_pos hc
  unfold stripL
  rw [h1, stripL_dropWhile_eq_self hX, stripL_reverse_dropWhile hX,
    List.reverse_reverse]

theorem secStep_blank (st : SecState) : secStep st "" = secFlush st := by
  unfold secStep
  dsimp only
  rw [if_pos (by decide)]

theorem secStep_title (st : SecState) (t : String) (hinv : pyStrip t = t) :
    secStep st ("[" ++ t ++ "]") = { secFlush st with title := t } := by
  have hdata : ("[" ++ t ++ "]").data = '[' :: (t.data ++ [']']) := by
    simp [strData_append]
  have hs : stripL ("[" ++ t ++ "]").data = '[' :: (t.data ++ [']']) := by
    rw [hdata]
    apply stripL_eq_self
    · intro c hc
      simp only [List.head?_cons, Option.mem_def, Option.some.injEq] at hc
      subst hc
      decide
    · intro c hc
      rw [show '[' :: (t.data ++ [']']) = ('[' :: t.data) ++ [']'] from rfl,
        List.getLast?_concat] at hc
      simp only [Option.mem_def, Option.some.injEq] at hc
      subst hc
      decide
  unfold secStep
  dsimp only
  rw [hs]
  rw [if_neg (by simp)]
  rw [if_pos (by
    rw [show ('[' :: (t.data ++ [']'])).reverse = ']' :: ('[' :: t.data).reverse from by
      rw [show '[' :: (t.data ++ [']']) = ('[' :: t.data) ++ [']'] from rfl,
        List.reverse_concat]]
    simp [listPre])]
  rw [show ('[' :: (t.data ++ [']'])).drop 1 = t.data ++ [']'] from rfl,
    List.dropLast_concat, pyStrip_eq_iff.mp hinv, mk_data_self]

theorem secStep_item (st : SecState) (l : String) (hinv : pyStrip l = l) :
    secStep st ("- " ++ l) = { st with lines := st.lines ++ [l] } := by
  by_cases hl : l = ""
  · subst hl
    unfold secStep
    dsimp only
    rw [show stripL ("- " ++ "").data = ['-'] from by decide]
    rw [if_neg (by decide), if_neg (by decide), if_pos (by decide)]
    rw [show (['-'].drop 1) = [] from rfl]
    rfl
  · have hdata : ("- " ++ l).data = '-' :: ' ' :: l.data := by
      simp [strData_append]
    have hXinv : stripL l.data = l.data := pyStrip_eq_iff.mp hinv
    have hs : stripL ("- " ++ l).data = '-' :: ' ' :: l.data := by
      rw [hdata]
      apply stripL_eq_self
      · intro c hc
        simp only [List.head?_cons, Option.mem_def, Option.some.injEq] at hc
        subst hc
        decide
      · intro c hc
        cases hld : l.data with
        | nil => exact absurd hld (str_data_ne_nil hl)
        | cons d ds =>
            rw [hld, List.getLast?_cons_cons, List.getLast?_cons_cons] at hc
            exact stripL_eq_self_last hXinv c (by rw [hld]; exact hc)
    unfold secStep
    dsimp only
    rw [hs]
    rw [if_neg (by simp)]
    rw [if_neg (by simp [listPre])]
    rw [if_pos (by simp [bulletHead, hasSubstr, listPre])]
    rw [show ('-' :: ' ' :: l.data).drop 1 = ' ' :: l.data from rfl]
    rw [stripL_cons_ws (by decide) hXinv, mk_data_self]

theorem secRun_items (items : List String) :
    ∀ (st : SecState), (∀ l ∈ items, pyStrip l = l) →
    (items.map (fun l => "- " ++ l)).foldl secStep st =
      { st with lines := st.lines ++ items } := by
  induction items with
  | nil =>
      intro st _
      simp
  | cons x xs ih =>
      intro st h
      rw [List.map_cons, List.foldl_cons, secStep_item st x (h x (by simp))]
      rw [ih _ (fun l hl => h l (by simp [hl]))]
      simp [List.append_assoc]

theorem secRun_section (sec : Sec) (acc : List Sec) (h : SecOK sec) :
    (serializeSection sec).foldl secStep ⟨"", [], acc⟩ =
      ⟨sec.title, sec.lines, acc⟩ := by
  unfold serializeSection
  rw [List.foldl_cons, secStep_title _ _ h.1.2.1]
  have hflush : secFlush ⟨"", [], acc⟩ = ⟨"", [], acc⟩ := by
    unfold secFlush
    rw [if_neg (by simp)]
  rw [hflush]
  rw [secRun_items _ _ h.2]
  simp

theorem secFlush_ok (t : String) (ls : List String) (acc : List Sec)
    (ht : t ≠ "") (hls : ls ≠ []) :
    secFlush ⟨t, ls, acc⟩ = ⟨"", [], acc ++ [⟨t, ls⟩]⟩ := by
  unfold secFlush
  rw [if_pos ⟨ht, hls⟩]

theorem secRun_all (ss : List Sec) :
    ∀ (acc : List Sec), (∀ sec ∈ ss, SecOK sec) →
    (secFlush ((joinBlank (ss.map serializeSection)).foldl secStep
      ⟨"", [], acc⟩)).secs = acc ++ ss := by
  induction ss with
  | nil =>
      intro acc _
      show (secFlush ⟨"", [], acc⟩).secs = acc ++ []
      rw [show secFlush ⟨"", [], acc⟩ = ⟨"", [], acc⟩ from by
        unfold secFlush; rw [if_neg (by simp)]]
      simp
  | cons sec rest ih =>
      intro acc h
      cases rest with
      | nil =>
          rw [show joinBlank ([sec].map serializeSection) = serializeSection sec
            from rfl]
          rw [secRun_section sec acc (h sec (by simp))]
          have hb := (h sec (by simp)).1
          rw [secFlush_ok _ _ _ hb.1 hb.2.2.2.1]
      | cons s2 rest2 =>
          have hjb : joinBlank ((sec :: s2 :: rest2).map serializeSection) =
              serializeSection sec ++
                "" :: joinBlank ((s2 :: rest2).map serializeSection) := rfl
          rw [hjb, List.foldl_append, secRun_section sec acc (h sec (by simp)),
            List.foldl_cons, secStep_blank]
          have hb := (h sec (by simp)).1
          rw [secFlush_ok _ _ _ hb.1 hb.2.2.2.1]
          rw [ih _ (fun s hs => h s (by simp [hs]))]
          simp

theorem getLastD_mem {l : List String} (h : l ≠ []) : l.getLastD "" ∈ l := by
  cases l with
  | nil => exact absurd rfl h
  | cons b bs =>
      rw [List.getLastD_eq_getLast?]
      cases hl : (b :: bs).getLast? with
      | none =>
          rw [List.getLast?_eq_none_iff] at hl
          cases hl
      | some x => exact List.mem_of_getLast?_eq_some hl

/-- State invariant maintained by the sections parser: the pending title is
stripped and boundary-free, pending items are boundary-free, and every
flushed section satisfies `SecBase`. -/
def StInv (st : SecState) : Prop :=
  pyStrip st.title = st.title ∧
  (∀ c ∈ st.title.data, isLineBoundary c = false) ∧
  (∀ l ∈ st.lines, ∀ c ∈ l.data, isLineBoundary c = false) ∧
  ∀ sec ∈ st.secs, SecBase sec

theorem secFlush_inv {st : SecState} (h : StInv st) : StInv (secFlush st) := by
  obtain ⟨h1, h2, h3, h4⟩ := h
  unfold secFlush
  split
  · rename_i hcond
    refine ⟨rfl, by simp, by simp, ?_⟩
    intro sec hsec
    rcases List.mem_append.mp hsec with hm | hm
    · exact h4 sec hm
    · simp only [List.mem_singleton] at hm
      subst hm
      exact ⟨hcond.1, h1, h2, hcond.2, h3⟩
  · exact ⟨rfl, by simp, by simp, h4⟩

theorem secStep_inv {st : SecState} (raw : String)
    (hraw : ∀ c ∈ raw.data, isLineBoundary c = false)
    (h : StInv st) : StInv (secStep st raw) := by
  obtain ⟨h1, h2, h3, h4⟩ := h
  have hsmem : ∀ c ∈ stripL raw.data, isLineBoundary c = false :=
    fun c hc => hraw c (mem_stripL hc)
  unfold secStep
  dsimp only
  split
  · exact secFlush_inv ⟨h1, h2, h3, h4⟩
  · split
    · have hf := @secFlush_inv st ⟨h1, h2, h3, h4⟩
      refine ⟨?_, ?_, hf.2.2.1, hf.2.2.2⟩
      · unfold pyStrip
        rw [mk_data_eq, stripL_idem]
      · intro c hc
        rw [mk_data_eq] at hc
        have hc2 : c ∈ (stripL raw.data).drop 1 :=
          (List.dropLast_sublist _).subset (mem_stripL hc)
      
        exact hsmem c (List.mem_of_mem_drop hc2)
    · split
      · refine ⟨h1, h2, ?_, h4⟩
        intro l hl c hc
        rcases List.mem_append.mp hl with hm | hm
        · exact h3 l hm c hc
        · simp only [List.mem_singleton] at hm
          subst hm
          rw [mk_data_eq] at hc
          exact hsmem c (List.mem_of_mem_drop (mem_stripL hc))
      · split
        · rename_i hlines
          refine ⟨h1, h2, ?_, h4⟩
          intro l hl c hc
          rcases List.mem_append.mp hl with hm | hm
          · exact h3 l ((List.dropLast_sublist _).subset hm) c hc
          · simp only [List.mem_singleton] at hm
            subst hm
            rw [strData_append, strData_append] at hc
            rcases List.mem_append.mp hc with hm2 | hm2
            · rcases List.mem_append.mp hm2 with hm3 | hm3
              · exact h3 _ (getLastD_mem hlines) c hm3
              · simp only [show (" " : String).data = [' '] from rfl,
                  List.mem_singleton] at hm3
                subst hm3
                decide
            · rw [mk_data_eq] at hm2
              exact hsmem c hm2
        · by_cases ht : st.title ≠ ""
          · rw [if_pos ht]
            exact ⟨h1, h2, h3, h4⟩
          · rw [if_neg ht]
            refine ⟨?_, ?_, h3, h4⟩
            · unfold pyStrip
              rw [mk_data_eq, stripL_idem]
            · intro c hc
              rw [mk_data_eq] at hc
              exact hsmem c hc

theorem secRun_inv (lines : List String) :
    ∀ (st : SecState),
    (∀ raw ∈ lines, ∀ c ∈ raw.data, isLineBoundary c = false) →
    StInv st → StInv (lines.foldl secStep st) := by
  induction lines with
  | nil => exact fun st _ h => h
  | cons x xs ih =>
      intro st hlines h
      rw [List.foldl_cons]
      exact ih _ (fun raw hr => hlines raw (by simp [hr]))
        (secStep_inv x (hlines x (by simp)) h)

/-- Every section emitted by `parse_sections_text` satisfies `SecBase`. -/
theorem parse_sections_SecBase (txt : String) :
    ∀ sec ∈ parse_sections_text txt, SecBase sec := by
  intro sec hsec
  unfold parse_sections_text at hsec
  have hlines : ∀ raw ∈ pySplitlines txt, ∀ c ∈ raw.data,
      isLineBoundary c = false := by
    intro raw hraw c hc
    unfold pySplitlines at hraw
    obtain ⟨lc, hlc, rfl⟩ := List.mem_map.mp hraw
    rw [mk_data_eq] at hc
    exact (splitlinesL_chars _ lc hlc c hc).1
  have hinv := secRun_inv (pySplitlines txt) ⟨"", [], []⟩ hlines
    ⟨rfl, by simp, by simp, by simp⟩
  exact (secFlush_inv hinv).2.2.2 sec hsec

theorem serializeSection_ne_nil (sec : Sec) : serializeSection sec ≠ [] := by
  simp [serializeSection]

theorem serializeSection_lines_ne (sec : Sec) :
    ∀ x ∈ serializeSection sec, x ≠ "" := by
  intro x hx
  unfold serializeSection at hx
  rcases List.mem_cons.mp hx with h | h
  · subst h
    intro hbad
    have h2 := congrArg String.data hbad
    rw [strData_append, strData_append] at h2
    simp at h2
  · obtain ⟨l, _, rfl⟩ := List.mem_map.mp h
    intro hbad
    have h2 := congrArg String.data hbad
    rw [strData_append] at h2
    simp [show ("- " : String).data = ['-', ' '] from rfl] at h2

theorem serializeSection_bf {sec : Sec} (h : SecBase sec) :
    ∀ x ∈ serializeSection sec, ∀ c ∈ x.data, isLineBoundary c = false := by
  intro x hx c hc
  unfold serializeSection at hx
  rcases List.mem_cons.mp hx with hm | hm
  · subst hm
    rw [show ("[" ++ sec.title ++ "]").data = '[' :: (sec.title.data ++ [']'])
      from by simp [strData_append]] at hc
    rcases List.mem_cons.mp hc with h2 | h2
    · subst h2; decide
    · rcases List.mem_append.mp h2 with h3 | h3
      · exact h.2.2.1 c h3
      · simp only [List.mem_singleton] at h3
        subst h3
        decide
  · obtain ⟨l, hl, rfl⟩ := List.mem_map.mp hm
    rw [show ("- " ++ l).data = '-' :: ' ' :: l.data
      from by simp [strData_append]] at hc
    rcases List.mem_cons.mp hc with h2 | h2
    · subst h2; decide
    · rcases List.mem_cons.mp h2 with h3 | h3
      · subst h3; decide
      · exact h.2.2.2.2 l hl c h3

theorem joinBlank_mem {L : List (List String)} :
    ∀ x ∈ joinBlank L, x = "" ∨ ∃ chunk ∈ L, x ∈ chunk := by
  induction L with
  | nil => simp [joinBlank]
  | cons a bs ih =>
      cases bs with
      | nil =>
          intro x hx
          exact Or.inr ⟨a, by simp, by simpa [joinBlank] using hx⟩
      | cons b cs =>
          intro x hx
          rw [show joinBlank (a :: b :: cs) = a ++ "" :: joinBlank (b :: cs)
            from rfl] at hx
          rcases List.mem_append.mp hx with h | h
          · exact Or.inr ⟨a, by simp, h⟩
          · rcases List.mem_cons.mp h with h2 | h2
            · exact Or.inl h2
            · rcases ih x h2 with h3 | ⟨c, hc, hxc⟩
              · exact Or.inl h3
              · exact Or.inr ⟨c, by simp [hc], hxc⟩

theorem joinBlank_ne_nil {x : List String} {xs : List (List String)}
    (hx : x ≠ []) : joinBlank (x :: xs) ≠ [] := by
  cases xs with
  | nil => exact hx
  | cons y ys =>
      rw [show joinBlank (x :: y :: ys) = x ++ "" :: joinBlank (y :: ys) from rfl]
      simp

theorem joinBlank_getLast? {L : List (List String)} (hL : L ≠ [])
    (hall : ∀ chunk ∈ L, chunk ≠ []) :
    ∃ chunk, L.getLast? = some chunk ∧
      (joinBlank L).getLast? = chunk.getLast? := by
  induction L with
  | nil => exact absurd rfl hL
  | cons x xs ih =>
      cases xs with
      | nil => exact ⟨x, by simp, by simp [joinBlank]⟩
      | cons y ys =>
          obtain ⟨ch, h1, h2⟩ := ih (by simp) (fun c hc => hall c (by simp [hc]))
          refine ⟨ch, ?_, ?_⟩
          · rw [List.getLast?_cons_cons]
            exact h1
          · rw [show joinBlank (x :: y :: ys) = x ++ "" :: joinBlank (y :: ys)
              from rfl, List.getLast?_append_of_ne_nil _ (by simp)]
            have hJ : joinBlank (y :: ys) ≠ [] := joinBlank_ne_nil (hall y (by simp))
            cases hJc : joinBlank (y :: ys) with
            | nil => exact absurd hJc hJ
            | cons a bs =>
                rw [hJc] at h2
                rw [List.getLast?_cons_cons]
                exact h2

/-- Variant of `pySplitlines_strJoinNL` that allows interior empty lines
(only the last line must be non-empty). -/
theorem pySplitlines_strJoinNL2 {l : List String} (hne : l ≠ [])
    (hlast : ∀ s, l.getLast? = some s → s ≠ "")
    (hbf : ∀ x ∈ l, ∀ c ∈ x.data, isLineBoundary c = false) :
    pySplitlines (strJoinNL l) = l := by
  unfold strJoinNL pySplitlines
  rw [mk_data_eq]
  rw [splitlinesL_joinNL (by simpa using hne) ?hlast2 ?hbf2]
  case hlast2 =>
    intro hbad
    rw [List.getLast?_map] at hbad
    obtain ⟨s, hs, hsd⟩ := Option.map_eq_some'.mp hbad
    exact str_data_ne_nil (hlast s hs) hsd
  case hbf2 =>
    intro ch hch c hc
    obtain ⟨s, hs, rfl⟩ := List.mem_map.mp hch
    exact hbf s hs c hc
  rw [List.map_map]
  refine (List.map_congr_left ?_).trans (List.map_id _)
  intro a _
  exact mk_data_self a

/-- Re-parsing the canonical serialization of any list of `SecOK` sections
reproduces it exactly. -/
theorem roundtrip_SecOK (ss : List Sec) (h : ∀ sec ∈ ss, SecOK sec) :
    parse_sections_text (canonicalSerialize ss) = ss := by
  cases ss with
  | nil => decide
  | cons s0 rest =>
      unfold canonicalSerialize parse_sections_text
      rw [pySplitlines_strJoinNL2 ?hne ?hlast ?hbf]
      case hne =>
        rw [List.map_cons]
        exact joinBlank_ne_nil (serializeSection_ne_nil s0)
      case hlast =>
        intro s hsome
        obtain ⟨chunk, h1, h2⟩ := joinBlank_getLast?
          (L := (s0 :: rest).map serializeSection) (by simp) (by
            intro c hc
            obtain ⟨sec, _, rfl⟩ := List.mem_map.mp hc
            exact serializeSection_ne_nil sec)
        rw [h2] at hsome
        have hsmem : s ∈ chunk := List.mem_of_getLast?_eq_some hsome
        have hchunk : chunk ∈ (s0 :: rest).map serializeSection :=
          List.mem_of_getLast?_eq_some h1
        obtain ⟨sec, _, rfl⟩ := List.mem_map.mp hchunk
        exact serializeSection_lines_ne sec s hsmem
      case hbf =>
        intro x hx c hc
        rcases joinBlank_mem x hx with h1 | ⟨chunk, hch, hxc⟩
        · subst h1
          simp at hc
        · obtain ⟨sec, hsec, rfl⟩ := List.mem_map.mp hch
          exact serializeSection_bf (h sec hsec).1 x hxc c hc
      exact (secRun_all (s0 :: rest) [] h).trans (List.nil_append _)

/-- C4, counterexample.  On `"x\n-\ny"` the parser produces the section
`⟨"x", [" y"]⟩` (a continuation glued onto an empty bullet item leaves a
leading space), whose canonical serialization `"[x]\n-  y"` re-parses to
`⟨"x", ["y"]⟩`: serialize-then-reparse is NOT the identity on all inputs. -/
theorem C4_idempotence_counterexample :
    parse_sections_text (canonicalSerialize (parse_sections_text "x\n-\ny")) ≠
      parse_sections_text "x\n-\ny" := by
  decide

/-- C4 (amended): `parse_sections_text` is idempotent through the canonical
`[title]` / `- line` serialization on every input whose parsed line items
are strip-invariant (no item carries leading whitespace — such items arise
only from a continuation line merged onto an empty bullet item). -/
theorem C4_serialize_reparse :
    ∀ (txt : String),
    (∀ sec ∈ parse_sections_text txt, ∀ l ∈ sec.lines, pyStrip l = l) →
    parse_sections_text (canonicalSerialize (parse_sections_text txt)) =
      parse_sections_text txt := by
  intro txt hclean
  exact roundtrip_SecOK _
    (fun sec hs => ⟨parse_sections_SecBase txt sec hs, hclean sec hs⟩)

/-- Concrete instantiation of `C4_serialize_reparse`. -/
theorem C4_serialize_reparse_witness :
    parse_sections_text (canonicalSerialize (parse_sections_text
      "[Kontakt]\n- Berlin\n- you@example.com\n\n[Interessen]\n- KI")) =
      parse_sections_text
        "[Kontakt]\n- Berlin\n- you@example.com\n\n[Interessen]\n- KI" :=
  C4_serialize_reparse
    "[Kontakt]\n- Berlin\n- you@example.com\n\n[Interessen]\n- KI" (by decide)
